import Mathlib

/-!
Verification of the vscode-diff C core against its specification.

The C sources are shallowly embedded: C strings become lists of bytes
(`Str`), machine integers become `Int`/`Nat` (all quantities involved stay
far below any overflow boundary, so no wrap-around modelling is needed),
`malloc` failure is not modelled in the main pipeline (a separate model
covers the allocation-failure claims), and the monotonic-clock deadline
polls are modelled by an oracle `expired : Nat → Bool` giving the outcome
of the n-th poll.
-/

namespace VDiff

/-- A C string: the list of its bytes before the terminating NUL.
Bytes are in 1..255 (a NUL cannot occur inside a C string). -/
abbrev Str := List Nat

/-- Total lookup into a list at a C `int` index, returning a default out of
range (used where the C code guards indices itself). -/
def elemAt (l : List Nat) (i : Int) (d : Nat) : Nat :=
  if i < 0 then d else l.getD i.toNat d

/-- Pointwise update of an `Int`-indexed store (models writing one slot of
a C array that supports negative indices). -/
def upd {α : Type} (f : Int → α) (k : Int) (v : α) : Int → α :=
  fun i => if i = k then v else f i

theorem upd_same {α : Type} (f : Int → α) (k : Int) (v : α) : upd f k v k = v := by
  simp [upd]

theorem upd_ne {α : Type} (f : Int → α) (k i : Int) (v : α) (h : i ≠ k) :
    upd f k v i = f i := by
  simp [upd, h]

/-! ### String interner (string_hash_map.c)

`hash_for_bucket` is FNV-1a over the bytes of the string, on `uint32_t`
(modelled as `Nat` reduced mod `2 ^ 32` after each multiplication). -/

/-- One FNV-1a step: `hash ^= byte; hash *= 16777619` on `uint32_t`. -/
def fnvStep (h b : Nat) : Nat := ((h ^^^ b) * 16777619) % 2 ^ 32

/-- FNV-1a hash of a byte string, seed 2166136261 (hash_for_bucket). -/
def hashForBucket (s : Str) : Nat := s.foldl fnvStep 2166136261

/-- The interner: an array of chained buckets plus the current size.
Each bucket chain is the list of its entries, head = most recently
prepended, exactly as in the C chaining. -/
structure StringHashMap where
  buckets : List (List (Str × Nat))
  size : Nat

/-- Capacity of the map (number of buckets). -/
def StringHashMap.capacity (m : StringHashMap) : Nat := m.buckets.length

/-- The freshly created map: 16 empty buckets, size 0
(string_hash_map_create). -/
def emptyMap : StringHashMap := ⟨List.replicate 16 [], 0⟩

/-- Bucket index of a string for a given capacity. -/
def bucketIdx (s : Str) (cap : Nat) : Nat := hashForBucket s % cap

/-- Search one chain for a key (the `while (entry)` loop with `strcmp`). -/
def chainFind (s : Str) : List (Str × Nat) → Option Nat
  | [] => none
  | (k, v) :: rest => if k = s then some v else chainFind s rest

/-- Move one entry to its bucket in the new table (body of the rehash
loop; entries are prepended to the target chain, as in C). -/
def rehashStep (ncap : Nat) (acc : List (List (Str × Nat))) (e : Str × Nat) :
    List (List (Str × Nat)) :=
  acc.set (bucketIdx e.1 ncap) (e :: acc.getD (bucketIdx e.1 ncap) [])

/-- Resize at 75% load (resize_if_needed): the C test
`(double)size / capacity < 0.75` is exact for these integer ranges and is
equivalent to `4 * size < 3 * capacity`. Rehashing walks the buckets in
order and each chain head to tail, prepending into the doubled table. -/
def resizeIfNeeded (m : StringHashMap) : StringHashMap :=
  if 4 * m.size < 3 * m.capacity then m
  else
    let ncap := m.capacity * 2
    ⟨m.buckets.flatten.foldl (rehashStep ncap) (List.replicate ncap []), m.size⟩

/-- Prepend an entry to the bucket of `s`. -/
def insertEntry (m : StringHashMap) (s : Str) (v : Nat) : StringHashMap :=
  ⟨m.buckets.set (bucketIdx s m.capacity)
      ((s, v) :: m.buckets.getD (bucketIdx s m.capacity) []), m.size + 1⟩

/-- string_hash_map_get_or_create: look the key up in its bucket; if
absent, resize if needed, then insert it with the next sequential id. -/
def getOrCreate (m : StringHashMap) (s : Str) : Nat × StringHashMap :=
  match chainFind s (m.buckets.getD (bucketIdx s m.capacity) []) with
  | some v => (v, m)
  | none =>
      let m1 := resizeIfNeeded m
      (m1.size, insertEntry m1 s m1.size)

/-- Intern every string of a list in order, returning the ids and the
final map (the per-line loop of line_sequence_create). -/
def internAll (ss : List Str) (m : StringHashMap) : List Nat × StringHashMap :=
  match ss with
  | [] => ([], m)
  | s :: rest =>
      let (v, m1) := getOrCreate m s
      let (vs, m2) := internAll rest m1
      (v :: vs, m2)

/-! Well-formedness of the interner: `ks` lists the interned keys in
insertion order, so the entry for `ks[v]` carries value `v`. -/

/-- Interner invariant relative to the insertion-ordered key list `ks`. -/
def MapWF (m : StringHashMap) (ks : List Str) : Prop :=
  0 < m.capacity ∧
  m.size = ks.length ∧
  ks.Nodup ∧
  (∀ i k v, (k, v) ∈ m.buckets.getD i [] →
      ks[v]? = some k ∧ i = bucketIdx k m.capacity) ∧
  (∀ v, v < ks.length →
      (ks.getD v [], v) ∈ m.buckets.getD (bucketIdx (ks.getD v []) m.capacity) [])

/-- Reading any slot of a table of empty buckets gives the empty chain. -/
theorem getD_replicate_nil (n i : Nat) :
    (List.replicate n ([] : List (Str × Nat))).getD i [] = [] := by
  unfold List.getD
  rcases Nat.lt_or_ge i n with h | h
  · simp [List.getD_eq_getElem?_getD, List.getElem?_replicate, h]
  · have : (List.replicate n ([] : List (Str × Nat)))[i]? = none := by
      simp [List.getElem?_eq_none_iff]
      omega
    simp [List.getD_eq_getElem?_getD, this]

theorem emptyMap_wf : MapWF emptyMap [] := by
  refine ⟨by simp [emptyMap, StringHashMap.capacity], rfl, List.nodup_nil, ?_, ?_⟩
  · intro i k v hm
    exfalso
    have hb : (emptyMap.buckets.getD i []) = [] := getD_replicate_nil 16 i
    rw [hb] at hm
    simp at hm
  · intro v hv
    simp at hv

/-! Lemmas about chain search. -/

theorem chainFind_some {s : Str} :
    ∀ {c : List (Str × Nat)} {v : Nat}, chainFind s c = some v → (s, v) ∈ c := by
  intro c
  induction c with
  | nil => intro v h; simp [chainFind] at h
  | cons e rest ih =>
      intro v h
      rw [chainFind] at h
      by_cases hk : e.1 = s
      · simp [hk] at h
        have he : e = (s, v) := Prod.ext_iff.mpr ⟨hk, h⟩
        rw [he]
        exact List.mem_cons_self _ _
      · simp [hk] at h
        exact List.mem_cons_of_mem _ (ih h)

theorem chainFind_none {s : Str} :
    ∀ {c : List (Str × Nat)}, chainFind s c = none → ∀ v, (s, v) ∉ c := by
  intro c
  induction c with
  | nil => intro _ v; simp
  | cons e rest ih =>
      intro h v
      rw [chainFind] at h
      by_cases hk : e.1 = s
      · simp [hk] at h
      · simp [hk] at h
        intro hmem
        rcases List.mem_cons.mp hmem with he | hr
        · exact hk (by rw [← he])
        · exact ih h v hr

theorem chainFind_isSome_of_mem {s : Str} {v : Nat} :
    ∀ {c : List (Str × Nat)}, (s, v) ∈ c → (chainFind s c).isSome := by
  intro c
  induction c with
  | nil => intro h; simp at h
  | cons e rest ih =>
      intro h
      rw [chainFind]
      by_cases hk : e.1 = s
      · simp [hk]
      · simp only [hk, if_false]
        rcases List.mem_cons.mp h with he | hr
        · exact absurd (by rw [← he]) hk
        · exact ih hr

/-! Lemmas about bucket table updates. -/

theorem getD_set_self {α : Type} (l : List α) (i : Nat) (a d : α) (h : i < l.length) :
    (l.set i a).getD i d = a := by
  simp [List.getD_eq_getElem?_getD, List.getElem?_set_self', List.getElem?_eq_getElem h]

theorem getD_set_other {α : Type} (l : List α) {i j : Nat} (a d : α) (h : j ≠ i) :
    (l.set i a).getD j d = l.getD j d := by
  simp [List.getD_eq_getElem?_getD, List.getElem?_set_ne (fun he => h he.symm)]

theorem mem_flatten_iff {α : Type} (l : List (List α)) (a : α) :
    a ∈ l.flatten ↔ ∃ i, i < l.length ∧ a ∈ l.getD i ([] : List α) := by
  rw [List.mem_flatten]
  constructor
  · rintro ⟨c, hc, ha⟩
    rcases List.mem_iff_getElem.mp hc with ⟨i, hi, rfl⟩
    exact ⟨i, hi, by simpa [List.getD_eq_getElem?_getD, List.getElem?_eq_getElem hi] using ha⟩
  · rintro ⟨i, hi, ha⟩
    refine ⟨l[i], List.getElem_mem hi, ?_⟩
    simpa [List.getD_eq_getElem?_getD, List.getElem?_eq_getElem hi] using ha

theorem rehash_fold_length (ncap : Nat) :
    ∀ (entries : List (Str × Nat)) (init : List (List (Str × Nat))),
      (entries.foldl (rehashStep ncap) init).length = init.length := by
  intro entries
  induction entries with
  | nil => intro init; rfl
  | cons e es ih =>
      intro init
      rw [List.foldl_cons, ih]
      simp [rehashStep]

theorem rehash_fold_mem (ncap : Nat) (hn : 0 < ncap) :
    ∀ (entries : List (Str × Nat)) (init : List (List (Str × Nat))),
      init.length = ncap →
      ∀ i k v, ((k, v) ∈ (entries.foldl (rehashStep ncap) init).getD i [] ↔
        ((k, v) ∈ init.getD i [] ∨ ((k, v) ∈ entries ∧ i = bucketIdx k ncap))) := by
  intro entries
  induction entries with
  | nil => intro init _ i k v; simp
  | cons e es ih =>
      intro init hlen i k v
      rw [List.foldl_cons]
      have hlen1 : (rehashStep ncap init e).length = ncap := by
        simp [rehashStep, hlen]
      rw [ih _ hlen1 i k v]
      have hbi : bucketIdx e.1 ncap < init.length := by
        rw [hlen]; exact Nat.mod_lt _ hn
      by_cases hi : i = bucketIdx e.1 ncap
      · subst hi
        rw [show (rehashStep ncap init e).getD (bucketIdx e.1 ncap) [] =
              e :: init.getD (bucketIdx e.1 ncap) [] from
            getD_set_self _ _ _ _ hbi]
        constructor
        · rintro (h | h)
          · rcases List.mem_cons.mp h with he | hold
            · exact Or.inr ⟨by simp [he], by rw [← he]⟩
            · exact Or.inl hold
          · exact Or.inr ⟨List.mem_cons_of_mem _ h.1, h.2⟩
        · rintro (h | ⟨hm, hb⟩)
          · exact Or.inl (List.mem_cons_of_mem _ h)
          · rcases List.mem_cons.mp hm with he | hes
            · exact Or.inl (by rw [he]; exact List.mem_cons_self _ _)
            · exact Or.inr ⟨hes, hb⟩
      · rw [show (rehashStep ncap init e).getD i [] = init.getD i [] from
            getD_set_other _ _ _ hi]
        constructor
        · rintro (h | h)
          · exact Or.inl h
          · exact Or.inr ⟨List.mem_cons_of_mem _ h.1, h.2⟩
        · rintro (h | ⟨hm, hb⟩)
          · exact Or.inl h
          · rcases List.mem_cons.mp hm with he | hes
            · exact absurd hb (by rw [← he] at hi; exact hi)
            · exact Or.inr ⟨hes, hb⟩

theorem resizeIfNeeded_size (m : StringHashMap) : (resizeIfNeeded m).size = m.size := by
  unfold resizeIfNeeded
  split <;> rfl

theorem resizeIfNeeded_wf {m : StringHashMap} {ks : List Str} (h : MapWF m ks) :
    MapWF (resizeIfNeeded m) ks := by
  obtain ⟨hcap, hsize, hnd, hentry, hcomp⟩ := h
  unfold resizeIfNeeded
  split
  · exact ⟨hcap, hsize, hnd, hentry, hcomp⟩
  · set ncap := m.capacity * 2 with hncap
    have hn : 0 < ncap := by omega
    have hlen0 : (List.replicate ncap ([] : List (Str × Nat))).length = ncap := by simp
    have hflat : ∀ k v, ((k, v) ∈ m.buckets.flatten ↔
        ∃ i, i < m.capacity ∧ (k, v) ∈ m.buckets.getD i []) := by
      intro k v
      exact mem_flatten_iff m.buckets (k, v)
    have hmem := rehash_fold_mem ncap hn m.buckets.flatten
      (List.replicate ncap []) hlen0
    have hrepl : ∀ i, (List.replicate ncap ([] : List (Str × Nat))).getD i [] = [] :=
      fun i => getD_replicate_nil ncap i
    constructor
    · show 0 < (m.buckets.flatten.foldl (rehashStep ncap) (List.replicate ncap [])).length
      rw [rehash_fold_length, hlen0]
      exact hn
    refine ⟨hsize, hnd, ?_, ?_⟩
    · intro i k v hkv
      have hcap2 : (StringHashMap.mk
          (m.buckets.flatten.foldl (rehashStep ncap) (List.replicate ncap []))
          m.size).capacity = ncap := by
        show (m.buckets.flatten.foldl (rehashStep ncap) (List.replicate ncap [])).length = ncap
        rw [rehash_fold_length, hlen0]
      rw [hcap2]
      have := (hmem i k v).mp hkv
      rw [hrepl i] at this
      rcases this with h0 | ⟨hf, hb⟩
      · simp at h0
      · rcases (hflat k v).mp hf with ⟨j, _, hj⟩
        exact ⟨(hentry j k v hj).1, hb⟩
    · intro v hv
      have hcap2 : (StringHashMap.mk
          (m.buckets.flatten.foldl (rehashStep ncap) (List.replicate ncap []))
          m.size).capacity = ncap := by
        show (m.buckets.flatten.foldl (rehashStep ncap) (List.replicate ncap [])).length = ncap
        rw [rehash_fold_length, hlen0]
      rw [hcap2]
      have hold := hcomp v hv
      have hf : (ks.getD v [], v) ∈ m.buckets.flatten := by
        rw [hflat]
        exact ⟨bucketIdx (ks.getD v []) m.capacity, Nat.mod_lt _ hcap, hold⟩
      rw [hmem]
      rw [hrepl]
      exact Or.inr ⟨hf, rfl⟩

/-- Index of the first occurrence of a string in a list (length if
absent). Used as the abstract description of the ids the interner
assigns. -/
def firstIdx (s : Str) : List Str → Nat
  | [] => 0
  | k :: rest => if k = s then 0 else firstIdx s rest + 1

theorem firstIdx_lt_length {s : Str} : ∀ {ks : List Str}, s ∈ ks → firstIdx s ks < ks.length := by
  intro ks
  induction ks with
  | nil => intro h; simp at h
  | cons k rest ih =>
      intro h
      rw [firstIdx]
      by_cases hk : k = s
      · simp [hk]
      · simp only [hk, if_false, List.length_cons]
        have : s ∈ rest := by
          rcases List.mem_cons.mp h with he | hr
          · exact absurd he.symm hk
          · exact hr
        exact Nat.succ_lt_succ (ih this)

theorem firstIdx_of_not_mem {s : Str} : ∀ {ks : List Str}, s ∉ ks → firstIdx s ks = ks.length := by
  intro ks
  induction ks with
  | nil => intro _; rfl
  | cons k rest ih =>
      intro h
      rw [firstIdx]
      have hk : k ≠ s := fun he => h (he ▸ List.mem_cons_self _ _)
      have hr : s ∉ rest := fun hm => h (List.mem_cons_of_mem _ hm)
      simp [hk, ih hr]

theorem getD_firstIdx {s : Str} : ∀ {ks : List Str}, s ∈ ks → ks.getD (firstIdx s ks) [] = s := by
  intro ks
  induction ks with
  | nil => intro h; simp at h
  | cons k rest ih =>
      intro h
      rw [firstIdx]
      by_cases hk : k = s
      · simp [hk]
      · simp only [hk, if_false]
        have : s ∈ rest := by
          rcases List.mem_cons.mp h with he | hr
          · exact absurd he.symm hk
          · exact hr
        simpa using ih this

theorem firstIdx_eq_of_getElem {s : Str} :
    ∀ {ks : List Str}, ks.Nodup → ∀ {v : Nat}, ks[v]? = some s → v = firstIdx s ks := by
  intro ks
  induction ks with
  | nil => intro _ v h; simp at h
  | cons k rest ih =>
      intro hnd v h
      rw [firstIdx]
      rcases v with _ | v
      · simp at h
        simp [h]
      · rw [List.getElem?_cons_succ] at h
        have hk : k ≠ s := by
          intro he
          have : s ∈ rest := List.getElem?_mem h
          exact (List.nodup_cons.mp hnd).1 (he ▸ this)
        simp only [hk, if_false]
        have := ih (List.nodup_cons.mp hnd).2 h
        omega

theorem firstIdx_append_of_mem {s : Str} {ks t : List Str} (h : s ∈ ks) :
    firstIdx s (ks ++ t) = firstIdx s ks := by
  induction ks with
  | nil => simp at h
  | cons k rest ih =>
      rw [List.cons_append, firstIdx, firstIdx]
      by_cases hk : k = s
      · simp [hk]
      · have : s ∈ rest := by
          rcases List.mem_cons.mp h with he | hr
          · exact absurd he.symm hk
          · exact hr
        simp [hk, ih this]

theorem firstIdx_append_self {s : Str} {ks : List Str} (h : s ∉ ks) :
    firstIdx s (ks ++ [s]) = ks.length := by
  induction ks with
  | nil => simp [firstIdx]
  | cons k rest ih =>
      rw [List.cons_append, firstIdx]
      have hk : k ≠ s := fun he => h (he ▸ List.mem_cons_self _ _)
      have hr : s ∉ rest := fun hm => h (List.mem_cons_of_mem _ hm)
      simp [hk, ih hr]

theorem getOrCreate_found {m : StringHashMap} {ks : List Str} {s : Str}
    (h : MapWF m ks) (hs : s ∈ ks) :
    getOrCreate m s = (firstIdx s ks, m) := by
  obtain ⟨hcap, hsize, hnd, hentry, hcomp⟩ := h
  have hidx : firstIdx s ks < ks.length := firstIdx_lt_length hs
  have hget : ks.getD (firstIdx s ks) [] = s := getD_firstIdx hs
  have hm : (s, firstIdx s ks) ∈ m.buckets.getD (bucketIdx s m.capacity) [] := by
    have := hcomp (firstIdx s ks) hidx
    rw [hget] at this
    exact this
  have hfound := chainFind_isSome_of_mem hm
  unfold getOrCreate
  rcases hv : chainFind s (m.buckets.getD (bucketIdx s m.capacity) []) with _ | v
  · rw [hv] at hfound; simp at hfound
  · have hmem := chainFind_some hv
    have := hentry (bucketIdx s m.capacity) s v hmem
    have hksv : ks[v]? = some s := this.1
    have := firstIdx_eq_of_getElem hnd hksv
    simp [this]

theorem getOrCreate_new {m : StringHashMap} {ks : List Str} {s : Str}
    (h : MapWF m ks) (hs : s ∉ ks) :
    getOrCreate m s = (ks.length, (getOrCreate m s).2) ∧
      MapWF (getOrCreate m s).2 (ks ++ [s]) := by
  have hnone : chainFind s (m.buckets.getD (bucketIdx s m.capacity) []) = none := by
    rcases hv : chainFind s (m.buckets.getD (bucketIdx s m.capacity) []) with _ | v
    · rfl
    · exfalso
      have hmem := chainFind_some hv
      have := (h.2.2.2.1 (bucketIdx s m.capacity) s v hmem).1
      exact hs (List.getElem?_mem this)
  have h1 : MapWF (resizeIfNeeded m) ks := resizeIfNeeded_wf h
  obtain ⟨hcap, hsize, hnd, hentry, hcomp⟩ := h1
  set m1 := resizeIfNeeded m with hm1
  have hbi : bucketIdx s m1.capacity < m1.buckets.length := Nat.mod_lt _ hcap
  have hval : (getOrCreate m s).1 = ks.length := by
    unfold getOrCreate
    rw [hnone]
    simp [← hm1, hsize]
  constructor
  · have : getOrCreate m s = ((getOrCreate m s).1, (getOrCreate m s).2) := rfl
    rw [this, hval]
  · have hres : (getOrCreate m s).2 = insertEntry m1 s m1.size := by
      unfold getOrCreate
      rw [hnone]
    rw [hres]
    have hcap2 : (insertEntry m1 s m1.size).capacity = m1.capacity := by
      show (m1.buckets.set _ _).length = m1.buckets.length
      simp
    refine ⟨by rw [hcap2]; exact hcap, by simp [insertEntry, hsize], ?_, ?_, ?_⟩
    · exact List.Nodup.append hnd (List.nodup_singleton s) (by simpa using hs)
    · intro i k v hkv
      rw [hcap2]
      by_cases hi : i = bucketIdx s m1.capacity
      · subst hi
        rw [show (insertEntry m1 s m1.size).buckets.getD (bucketIdx s m1.capacity) [] =
              (s, m1.size) :: m1.buckets.getD (bucketIdx s m1.capacity) [] from
            getD_set_self _ _ _ _ hbi] at hkv
        rcases List.mem_cons.mp hkv with he | hold
        · have hk : k = s := by rw [Prod.ext_iff] at he; exact he.1
          have hv : v = m1.size := by rw [Prod.ext_iff] at he; exact he.2
          subst hk; subst hv
          constructor
          · rw [hsize, List.getElem?_append_right (by omega)]
            simp [hsize]
          · rfl
        · have := hentry _ _ _ hold
          exact ⟨by rw [List.getElem?_append_left (by
              have := this.1
              by_contra hge
              rw [List.getElem?_eq_none_iff.mpr (by omega)] at this
              simp at this)]; exact this.1, this.2⟩
      · rw [show (insertEntry m1 s m1.size).buckets.getD i [] = m1.buckets.getD i [] from
            getD_set_other _ _ _ hi] at hkv
        have := hentry _ _ _ hkv
        exact ⟨by rw [List.getElem?_append_left (by
            have := this.1
            by_contra hge
            rw [List.getElem?_eq_none_iff.mpr (by omega)] at this
            simp at this)]; exact this.1, this.2⟩
    · intro v hv
      rw [hcap2]
      rcases Nat.lt_or_ge v ks.length with hlt | hge
      · have hgv : (ks ++ [s]).getD v [] = ks.getD v [] := by
          rw [List.getD_eq_getElem?_getD, List.getD_eq_getElem?_getD,
            List.getElem?_append_left hlt]
        rw [hgv]
        have hold := hcomp v hlt
        by_cases hb : bucketIdx (ks.getD v []) m1.capacity = bucketIdx s m1.capacity
        · rw [hb, show (insertEntry m1 s m1.size).buckets.getD (bucketIdx s m1.capacity) [] =
              (s, m1.size) :: m1.buckets.getD (bucketIdx s m1.capacity) [] from
            getD_set_self _ _ _ _ hbi]
          exact List.mem_cons_of_mem _ (hb ▸ hold)
        · rw [show (insertEntry m1 s m1.size).buckets.getD
                (bucketIdx (ks.getD v []) m1.capacity) [] =
              m1.buckets.getD (bucketIdx (ks.getD v []) m1.capacity) [] from
            getD_set_other _ _ _ hb]
          exact hold
      · have hveq : v = ks.length := by
          have : v < (ks ++ [s]).length := hv
          simp at this
          omega
        subst hveq
        have hgv : (ks ++ [s]).getD ks.length [] = s := by
          rw [List.getD_eq_getElem?_getD, List.getElem?_append_right (by omega)]
          simp
        rw [hgv, show (insertEntry m1 s m1.size).buckets.getD (bucketIdx s m1.capacity) [] =
              (s, m1.size) :: m1.buckets.getD (bucketIdx s m1.capacity) [] from
            getD_set_self _ _ _ _ hbi, hsize]
        exact List.mem_cons_self _ _

/-! Canonical description of the ids assigned by a sequence of intern
calls: `extKeys` extends the insertion-ordered key list by one string. -/

/-- Key list after interning one more string. -/
def extKeys (ks : List Str) (s : Str) : List Str := if s ∈ ks then ks else ks ++ [s]

/-- Key list after interning a whole list of strings in order. -/
def extKeysAll (ks : List Str) (ss : List Str) : List Str := ss.foldl extKeys ks

theorem extKeysAll_exists_append (ss : List Str) :
    ∀ ks : List Str, ∃ t, extKeysAll ks ss = ks ++ t := by
  induction ss with
  | nil => intro ks; exact ⟨[], by simp [extKeysAll]⟩
  | cons s rest ih =>
      intro ks
      have h1 : extKeysAll ks (s :: rest) = extKeysAll (extKeys ks s) rest := rfl
      rcases ih (extKeys ks s) with ⟨t, ht⟩
      by_cases hs : s ∈ ks
      · refine ⟨t, ?_⟩
        rw [h1, ht]
        unfold extKeys
        simp [hs]
      · refine ⟨[s] ++ t, ?_⟩
        rw [h1, ht]
        unfold extKeys
        simp [hs]

theorem mem_extKeysAll_of_mem {s : Str} (ss : List Str) :
    ∀ ks : List Str, s ∈ ss → s ∈ extKeysAll ks ss := by
  induction ss with
  | nil => intro ks h; simp at h
  | cons a rest ih =>
      intro ks h
      have h1 : extKeysAll ks (a :: rest) = extKeysAll (extKeys ks a) rest := rfl
      rcases List.mem_cons.mp h with he | hr
      · rw [h1]
        rcases extKeysAll_exists_append rest (extKeys ks a) with ⟨t, ht⟩
        rw [ht, he]
        have : a ∈ extKeys ks a := by
          unfold extKeys
          by_cases hs : a ∈ ks
          · simp [hs]
          · simp [hs]
        exact List.mem_append_left _ this
      · rw [h1]; exact ih _ hr

theorem extKeysAll_of_all_mem (ss : List Str) :
    ∀ ks : List Str, (∀ s ∈ ss, s ∈ ks) → extKeysAll ks ss = ks := by
  induction ss with
  | nil => intro ks _; rfl
  | cons a rest ih =>
      intro ks h
      have h1 : extKeysAll ks (a :: rest) = extKeysAll (extKeys ks a) rest := rfl
      have ha : a ∈ ks := h a (List.mem_cons_self _ _)
      rw [h1]
      unfold extKeys
      rw [if_pos ha]
      exact ih ks (fun s hs => h s (List.mem_cons_of_mem _ hs))

theorem internAll_length (ss : List Str) :
    ∀ m : StringHashMap, (internAll ss m).1.length = ss.length := by
  induction ss with
  | nil => intro m; rfl
  | cons s rest ih =>
      intro m
      show ((getOrCreate m s).1 :: (internAll rest (getOrCreate m s).2).1).length = _
      simp [ih]

theorem internAll_wf {ss : List Str} :
    ∀ {m : StringHashMap} {ks : List Str}, MapWF m ks →
      MapWF (internAll ss m).2 (extKeysAll ks ss) := by
  induction ss with
  | nil => intro m ks h; exact h
  | cons s rest ih =>
      intro m ks h
      have h1 : (internAll (s :: rest) m).2 = (internAll rest (getOrCreate m s).2).2 := by
        show ((getOrCreate m s).1 :: (internAll rest (getOrCreate m s).2).1,
          (internAll rest (getOrCreate m s).2).2).2 = _
        rfl
      have h2 : extKeysAll ks (s :: rest) = extKeysAll (extKeys ks s) rest := rfl
      rw [h1, h2]
      by_cases hs : s ∈ ks
      · have := getOrCreate_found h hs
        have hm2 : (getOrCreate m s).2 = m := by rw [this]
        rw [hm2]
        unfold extKeys
        rw [if_pos hs]
        exact ih h
      · have := (getOrCreate_new h hs).2
        unfold extKeys
        rw [if_neg hs]
        exact ih this

theorem internAll_ids {ss : List Str} :
    ∀ {m : StringHashMap} {ks : List Str}, MapWF m ks →
      ∀ i, i < ss.length →
        (internAll ss m).1[i]? = some (firstIdx (ss.getD i []) (extKeysAll ks ss)) := by
  induction ss with
  | nil => intro m ks _ i hi; simp at hi
  | cons s rest ih =>
      intro m ks h i hi
      have hcons : (internAll (s :: rest) m).1 =
          (getOrCreate m s).1 :: (internAll rest (getOrCreate m s).2).1 := rfl
      have h2 : extKeysAll ks (s :: rest) = extKeysAll (extKeys ks s) rest := rfl
      rcases i with _ | i
      · rw [hcons]
        simp only [List.getElem?_cons_zero, List.getD_cons_zero, h2]
        rcases extKeysAll_exists_append rest (extKeys ks s) with ⟨t, ht⟩
        by_cases hs : s ∈ ks
        · have hv : (getOrCreate m s).1 = firstIdx s ks := by
            rw [getOrCreate_found h hs]
          rw [hv, ht]
          unfold extKeys
          rw [if_pos hs]
          rw [firstIdx_append_of_mem hs]
        · have hv : (getOrCreate m s).1 = ks.length := by
            have := (getOrCreate_new h hs).1
            rw [this]
          rw [hv, ht]
          unfold extKeys
          rw [if_neg hs]
          have hmem : s ∈ ks ++ [s] := List.mem_append_right _ (List.mem_singleton.mpr rfl)
          rw [firstIdx_append_of_mem hmem, firstIdx_append_self hs]
      · rw [hcons]
        simp only [List.getElem?_cons_succ, List.getD_cons_succ, h2]
        by_cases hs : s ∈ ks
        · have hm2 : (getOrCreate m s).2 = m := by rw [getOrCreate_found h hs]
          rw [hm2]
          unfold extKeys
          rw [if_pos hs]
          exact ih h i (by simpa using hi)
        · have := (getOrCreate_new h hs).2
          unfold extKeys
          rw [if_neg hs]
          exact ih this i (by simpa using hi)

/-! ### Core data types (types.h) -/

/-- SequenceDiff: 0-based half-open index ranges in both sequences. -/
structure SequenceDiff where
  seq1Start : Int
  seq1End : Int
  seq2Start : Int
  seq2End : Int
  deriving DecidableEq, Repr

/-- Result of one LCS run: the diff list plus the timeout flag the C code
writes through its out-parameter. -/
structure DiffResult where
  diffs : List SequenceDiff
  hitTimeout : Bool
  deriving DecidableEq, Repr

/-- The ISequence interface: length, hash-element access, strong equality
and boundary scoring, with the bounds guards each C implementation
performs inside the accessors. -/
structure ISeq where
  length : Nat
  getElement : Int → Nat
  isStronglyEqual : Int → Int → Bool
  getBoundaryScore : Int → Int

/-! ### Line sequences (sequence.c) -/

/-- C `isspace` in the default locale (bytes 9..13 and 32). -/
def isspaceByte (b : Nat) : Bool := b == 32 || (9 ≤ b && b ≤ 13)

/-- trim_string from sequence.c: strip leading and trailing `isspace`
bytes. -/
def trimString (s : Str) : Str :=
  ((s.dropWhile isspaceByte).reverse.dropWhile isspaceByte).reverse

/-- get_indentation: number of leading spaces/tabs. -/
def getIndentation (s : Str) : Int :=
  ((s.takeWhile (fun b => b == 32 || b == 9)).length : Int)

/-- line_seq_get_boundary_score: 1000 minus the indentations around the
boundary, 0 out of range. -/
def lineBoundaryScore (lines : List Str) (len : Int) : Int :=
  if len < 0 ∨ (lines.length : Int) < len then 0
  else
    let indentBefore : Int := if 0 < len then getIndentation (lines.getD (len - 1).toNat []) else 0
    let indentAfter : Int := if len < (lines.length : Int) then getIndentation (lines.getD len.toNat []) else 0
    1000 - (indentBefore + indentAfter)

/-- line_sequence_create: intern each line (trimmed when
ignore_whitespace) into the shared map and expose the ISequence
interface over the resulting perfect-hash ids. -/
def lineSequence (lines : List Str) (ignoreWs : Bool) (m : StringHashMap) :
    ISeq × StringHashMap :=
  let (ids, m2) := internAll (if ignoreWs then lines.map trimString else lines) m
  ({ length := lines.length
     getElement := fun i =>
       if i < 0 ∨ (lines.length : Int) ≤ i then 0 else ids.getD i.toNat 0
     isStronglyEqual := fun i j =>
       if i < 0 ∨ (lines.length : Int) ≤ i ∨ j < 0 ∨ (lines.length : Int) ≤ j then false
       else lines.getD i.toNat [] == lines.getD j.toNat []
     getBoundaryScore := lineBoundaryScore lines }, m2)

/-! ### O(MN) dynamic-programming diff (myers.c, myers_dp_diff_algorithm)

The three calloc-ed matrices hold, per cell, the LCS objective, the
direction taken (1 horizontal, 2 vertical, 3 diagonal) and the current
consecutive-diagonal run length.  Both call sites in this repository pass
a NULL score function, so the diagonal reward is the constant `1.0`; every
value stored in the double matrices is then a small integer and all
arithmetic and comparisons are exact, so the cells are modelled with
`Int`.  A cell depends only on its three predecessors, so the row-major
fill loop is embedded as a recurrence. -/

structure DPCell where
  lcs : Int
  dir : Int
  run : Int
  deriving DecidableEq, Repr

/-- Direction choice of the DP fill loop: maximum of horizontal,
vertical and diagonal candidate, diagonal preferred on ties (the C
compares `new_value == extended_seq_score` first). -/
def dpChoice (h v ext prun : Int) : DPCell :=
  let nv := max (max h v) ext
  if nv = ext then ⟨nv, 3, prun + 1⟩
  else if nv = h then ⟨nv, 1, 0⟩
  else ⟨nv, 2, 0⟩

/-- One DP cell: compute the diagonal candidate from the predecessor cell
(`-1` when the elements differ, else predecessor objective plus the
consecutive-diagonal bonus plus the reward `1.0`), then pick the best of
horizontal, vertical and diagonal, preferring the diagonal on ties. -/
def dpCellCore (eq : Bool) (h v : Int) (dprev : Option DPCell) : DPCell :=
  let ext : Int :=
    if eq then
      (match dprev with | some p => p.lcs | none => 0) +
        (match dprev with
         | some p => if p.dir = 3 then p.run else 0
         | none => 0) + 1
    else -1
  dpChoice h v ext (match dprev with | some p => p.run | none => 0)

/-- Row 0 of the DP matrices. -/
def dpRow0 (eq0 : Nat → Bool) : Nat → DPCell
  | 0 => dpCellCore (eq0 0) 0 0 none
  | s2 + 1 => dpCellCore (eq0 (s2 + 1)) 0 (dpRow0 eq0 s2).lcs none

/-- Row `s1 + 1` of the DP matrices, given row `s1`. -/
def dpRowNext (eq : Nat → Bool) (prev : Nat → DPCell) : Nat → DPCell
  | 0 => dpCellCore (eq 0) (prev 0).lcs 0 none
  | s2 + 1 =>
      dpCellCore (eq (s2 + 1)) (prev (s2 + 1)).lcs (dpRowNext eq prev s2).lcs
        (some (prev s2))

/-- The full DP table, cell (s1, s2). -/
def dpTable (e1 e2 : Nat → Nat) : Nat → Nat → DPCell
  | 0 => dpRow0 (fun j => e1 0 == e2 j)
  | s1 + 1 => dpRowNext (fun j => e1 (s1 + 1) == e2 j) (dpTable e1 e2 s1)

/-- Backtrack walk of the direction matrix.  The C code materialises the
emitted diffs into a pre-counted array filled back to front; emitting by
prepending while walking produces exactly that array as a list.  The walk
always terminates within `len1 + len2 + 1` steps (each step decreases
`s1 + s2`), which the fuel covers at every call site. -/
def dpBacktrack (tbl : Nat → Nat → DPCell) :
    Nat → Int → Int → Int → Int → List SequenceDiff → List SequenceDiff
  | 0, _, _, lastA, lastB, acc =>
      if 0 ≠ lastA ∨ 0 ≠ lastB then ⟨0, lastA, 0, lastB⟩ :: acc else acc
  | fuel + 1, s1, s2, lastA, lastB, acc =>
      if 0 ≤ s1 ∧ 0 ≤ s2 then
        let c := tbl s1.toNat s2.toNat
        if c.dir = 3 then
          let acc' :=
            if s1 + 1 ≠ lastA ∨ s2 + 1 ≠ lastB then
              ⟨s1 + 1, lastA, s2 + 1, lastB⟩ :: acc
            else acc
          dpBacktrack tbl fuel (s1 - 1) (s2 - 1) s1 s2 acc'
        else if c.dir = 1 then dpBacktrack tbl fuel (s1 - 1) s2 lastA lastB acc
        else dpBacktrack tbl fuel s1 (s2 - 1) lastA lastB acc
      else if 0 ≠ lastA ∨ 0 ≠ lastB then ⟨0, lastA, 0, lastB⟩ :: acc
      else acc

/-- myers_dp_diff_algorithm.  The deadline polls happen once per cell in
row-major order; the oracle `expired` gives the outcome of the n-th poll,
so the run bails out iff the deadline is enabled and some poll among the
`len1 * len2` performed ones fires. -/
def myersDpDiffAlgorithm (s1 s2 : ISeq) (timeoutMs : Int) (expired : Nat → Bool) :
    DiffResult :=
  let len1 := s1.length
  let len2 := s2.length
  if len1 = 0 ∨ len2 = 0 then
    if len1 = 0 ∧ len2 = 0 then ⟨[], false⟩
    else ⟨[⟨0, (len1 : Int), 0, (len2 : Int)⟩], false⟩
  else if 0 < timeoutMs ∧ (List.range (len1 * len2)).any expired then
    ⟨[⟨0, (len1 : Int), 0, (len2 : Int)⟩], true⟩
  else
    let e1 : Nat → Nat := fun i => s1.getElement (i : Int)
    let e2 : Nat → Nat := fun i => s2.getElement (i : Int)
    ⟨dpBacktrack (dpTable e1 e2) (len1 + len2 + 2)
        ((len1 : Int) - 1) ((len2 : Int) - 1) (len1 : Int) (len2 : Int) [], false⟩

/-! DP facts.  `gB m` is the maximal objective value a cell with
`min s1 s2 = m` can hold (the diagonal of a self-comparison attains it):
`gB` satisfies `gB 0 = 1` and `gB (m+1) = gB m + (m+2)`. -/

/-- Upper bound for DP objective values, `(m+1)(m+2)/2` in closed form. -/
def gB : Nat → Int
  | 0 => 1
  | m + 1 => gB m + (m + 2)

theorem gB_pos : ∀ m, 1 ≤ gB m := by
  intro m
  induction m with
  | zero => simp [gB]
  | succ m ih => rw [gB]; omega

theorem gB_mono : ∀ {a b : Nat}, a ≤ b → gB a ≤ gB b := by
  intro a b h
  induction b with
  | zero =>
      have : a = 0 := by omega
      simp [this]
  | succ b ih =>
      rcases Nat.lt_or_ge a (b + 1) with hl | hg
      · have := ih (by omega)
        rw [gB]
        omega
      · have : a = b + 1 := by omega
        simp [this]

/-- Bounds for the direction choice. -/
theorem dpChoice_bounds (h v E PRb B R : Int)
    (hh0 : 0 ≤ h) (hhB : h ≤ B) (hv0 : 0 ≤ v) (hvB : v ≤ B) (hEB : E ≤ B)
    (hPR0 : 0 ≤ PRb) (hPRR : PRb + 1 ≤ R) :
    (0 ≤ (dpChoice h v E PRb).lcs ∧ (dpChoice h v E PRb).lcs ≤ B ∧ 0 ≤ v) ∧
      0 ≤ (dpChoice h v E PRb).run ∧ (dpChoice h v E PRb).run ≤ R := by
  unfold dpChoice
  have hnvh : h ≤ max (max h v) E := le_trans (le_max_left _ _) (le_max_left _ _)
  have hnvB : max (max h v) E ≤ B := max_le (max_le hhB hvB) hEB
  by_cases h3 : max (max h v) E = E
  · rw [if_pos h3]
    refine ⟨⟨?_, ?_, ?_⟩, ?_, ?_⟩ <;> dsimp only <;> omega
  · rw [if_neg h3]
    by_cases h4 : max (max h v) E = h
    · rw [if_pos h4]
      refine ⟨⟨?_, ?_, ?_⟩, ?_, ?_⟩ <;> dsimp only <;> omega
    · rw [if_neg h4]
      refine ⟨⟨?_, ?_, ?_⟩, ?_, ?_⟩ <;> dsimp only <;> omega

/-- Bounds for one DP cell given bounds on its inputs. -/
theorem dpCellCore_bounds (eq : Bool) (h v : Int) (dprev : Option DPCell) (B R : Int)
    (hB : 1 ≤ B) (hR : 1 ≤ R)
    (hh0 : 0 ≤ h) (hhB : h ≤ B) (hv0 : 0 ≤ v) (hvB : v ≤ B)
    (hext : ∀ p, dprev = some p → p.lcs + (if p.dir = 3 then p.run else 0) + 1 ≤ B)
    (hrun : ∀ p, dprev = some p → 0 ≤ p.run ∧ p.run + 1 ≤ R) :
    (0 ≤ (dpCellCore eq h v dprev).lcs ∧ (dpCellCore eq h v dprev).lcs ≤ B) ∧
      0 ≤ (dpCellCore eq h v dprev).run ∧ (dpCellCore eq h v dprev).run ≤ R := by
  cases dprev with
  | none =>
      dsimp only [dpCellCore]
      have hE : (if eq = true then (0 : Int) + 0 + 1 else -1) ≤ B := by
        split_ifs <;> omega
      have hch := dpChoice_bounds h v (if eq = true then (0 : Int) + 0 + 1 else -1) 0 B R
        hh0 hhB hv0 hvB hE le_rfl (by omega)
      exact ⟨⟨hch.1.1, hch.1.2.1⟩, hch.2⟩
  | some p =>
      have h1 := hext p rfl
      have h2 := hrun p rfl
      dsimp only [dpCellCore]
      have hE : (if eq = true then p.lcs + (if p.dir = 3 then p.run else 0) + 1 else -1) ≤ B := by
        by_cases hdir : p.dir = 3
        · rw [if_pos hdir] at h1 ⊢
          split_ifs <;> omega
        · rw [if_neg hdir] at h1 ⊢
          split_ifs <;> omega
      have hch := dpChoice_bounds h v
        (if eq = true then p.lcs + (if p.dir = 3 then p.run else 0) + 1 else -1) p.run B R
        hh0 hhB hv0 hvB hE h2.1 h2.2
      exact ⟨⟨hch.1.1, hch.1.2.1⟩, hch.2⟩

/-- Every DP cell obeys the objective bound `gB (min s1 s2)` and the run
bound `min s1 s2 + 1`. -/
theorem dpTable_bounds (e1 e2 : Nat → Nat) :
    ∀ s1 s2, (0 ≤ (dpTable e1 e2 s1 s2).lcs ∧
        (dpTable e1 e2 s1 s2).lcs ≤ gB (min s1 s2)) ∧
      0 ≤ (dpTable e1 e2 s1 s2).run ∧
        (dpTable e1 e2 s1 s2).run ≤ ((min s1 s2 : Nat) : Int) + 1 := by
  intro s1
  induction s1 with
  | zero =>
      intro s2
      induction s2 with
      | zero =>
          have := dpCellCore_bounds (e1 0 == e2 0) 0 0 none (gB 0) 1
            (gB_pos 0) le_rfl le_rfl (by have := gB_pos 0; omega) le_rfl
            (by have := gB_pos 0; omega)
            (fun p hp => by simp at hp) (fun p hp => by simp at hp)
          simpa [dpTable, dpRow0] using this
      | succ s2 ih =>
          have hprev := ih
          have hv : 0 ≤ (dpRow0 (fun j => e1 0 == e2 j) s2).lcs ∧
              (dpRow0 (fun j => e1 0 == e2 j) s2).lcs ≤ gB 0 := by
            have := hprev.1
            simpa [dpTable] using this
          have := dpCellCore_bounds (e1 0 == e2 (s2 + 1)) 0
            (dpRow0 (fun j => e1 0 == e2 j) s2).lcs none (gB 0) 1
            (gB_pos 0) le_rfl le_rfl (by have := gB_pos 0; omega) hv.1 hv.2
            (fun p hp => by simp at hp) (fun p hp => by simp at hp)
          simpa [dpTable, dpRow0] using this
  | succ s1 ihrow =>
      intro s2
      induction s2 with
      | zero =>
          have hh : 0 ≤ (dpTable e1 e2 s1 0).lcs ∧ (dpTable e1 e2 s1 0).lcs ≤ gB 0 := by
            have := (ihrow 0).1
            simpa using this
          have := dpCellCore_bounds (e1 (s1 + 1) == e2 0) (dpTable e1 e2 s1 0).lcs 0 none
            (gB 0) 1 (gB_pos 0) le_rfl hh.1 hh.2 le_rfl (by have := gB_pos 0; omega)
            (fun p hp => by simp at hp) (fun p hp => by simp at hp)
          simpa [dpTable, dpRowNext] using this
      | succ s2 ih =>
          have hm : min (s1 + 1) (s2 + 1) = min s1 s2 + 1 := by omega
          have hh := (ihrow (s2 + 1)).1
          have hhB : (dpTable e1 e2 s1 (s2 + 1)).lcs ≤ gB (min (s1 + 1) (s2 + 1)) :=
            le_trans hh.2 (gB_mono (by omega))
          have hv0 := ih.1
          have hvraw : (dpTable e1 e2 (s1 + 1) s2).lcs ≤ gB (min (s1 + 1) (s2 + 1)) :=
            le_trans hv0.2 (gB_mono (by omega))
          have hvv : dpTable e1 e2 (s1 + 1) s2 =
              dpRowNext (fun j => e1 (s1 + 1) == e2 j) (dpTable e1 e2 s1) s2 := by
            simp [dpTable]
          have hd := ihrow s2
          have hextp : ∀ p, (some (dpTable e1 e2 s1 s2) : Option DPCell) = some p →
              p.lcs + (if p.dir = 3 then p.run else 0) + 1 ≤ gB (min (s1 + 1) (s2 + 1)) := by
            intro p hp
            have hp' : p = dpTable e1 e2 s1 s2 := by
              injection hp with h
              exact h.symm
            subst hp'
            rw [hm, gB]
            have h1 := hd.1
            have h2 := hd.2
            by_cases hdir : (dpTable e1 e2 s1 s2).dir = 3
            · rw [if_pos hdir]
              omega
            · rw [if_neg hdir]
              have := gB_pos (min s1 s2)
              omega
          have hrunp : ∀ p, (some (dpTable e1 e2 s1 s2) : Option DPCell) = some p →
              0 ≤ p.run ∧ p.run + 1 ≤ ((min (s1 + 1) (s2 + 1) : Nat) : Int) + 1 := by
            intro p hp
            have hp' : p = dpTable e1 e2 s1 s2 := by
              injection hp with h
              exact h.symm
            subst hp'
            have h2 := hd.2
            refine ⟨h2.1, ?_⟩
            have := h2.2
            push_cast
            push_cast at this
            omega

          have := dpCellCore_bounds (e1 (s1 + 1) == e2 (s2 + 1))
            (dpTable e1 e2 s1 (s2 + 1)).lcs
            (dpRowNext (fun j => e1 (s1 + 1) == e2 j) (dpTable e1 e2 s1) s2).lcs
            (some (dpTable e1 e2 s1 s2))
            (gB (min (s1 + 1) (s2 + 1))) (((min (s1 + 1) (s2 + 1) : Nat) : Int) + 1)
            (gB_pos _)
            (by have : (0 : Int) ≤ ((min (s1 + 1) (s2 + 1) : Nat) : Int) :=
                  Int.natCast_nonneg _
                omega)
            hh.1 hhB (by rw [← hvv]; exact hv0.1) (by rw [← hvv]; exact hvraw)
            hextp hrunp
          have hgoal : dpTable e1 e2 (s1 + 1) (s2 + 1) =
              dpCellCore (e1 (s1 + 1) == e2 (s2 + 1)) (dpTable e1 e2 s1 (s2 + 1)).lcs
                (dpRowNext (fun j => e1 (s1 + 1) == e2 j) (dpTable e1 e2 s1) s2).lcs
                (some (dpTable e1 e2 s1 s2)) := by
            simp [dpTable, dpRowNext]
          rw [hgoal]
          exact this

/-- If both rival candidates are at most the diagonal candidate, the
choice is the diagonal. -/
theorem dpChoice_diag (h v E prun : Int) (hh : h ≤ E) (hv : v ≤ E) :
    dpChoice h v E prun = ⟨E, 3, prun + 1⟩ := by
  unfold dpChoice
  have hnv : max (max h v) E = E := max_eq_right (max_le hh hv)
  rw [hnv, if_pos rfl]

/-- On a self-comparison the diagonal cell (i, i) always chooses the
diagonal, with objective exactly `gB i` and run length `i + 1`. -/
theorem dpTable_diag (e : Nat → Nat) :
    ∀ i, dpTable e e i i = ⟨gB i, 3, (i : Int) + 1⟩ := by
  intro i
  induction i with
  | zero =>
      show dpCellCore (e 0 == e 0) 0 0 none = _
      rw [show (e 0 == e 0) = true by simp]
      dsimp only [dpCellCore]
      rw [show (if true = true then (0 : Int) + 0 + 1 else -1) = 1 by norm_num]
      rw [dpChoice_diag 0 0 1 0 (by omega) (by omega)]
      norm_num [gB]
  | succ i ih =>
      have hcell : dpTable e e (i + 1) (i + 1) =
          dpCellCore (e (i + 1) == e (i + 1)) (dpTable e e i (i + 1)).lcs
            (dpTable e e (i + 1) i).lcs (some (dpTable e e i i)) := by
        simp [dpTable, dpRowNext]
      have hhB : (dpTable e e i (i + 1)).lcs ≤ gB i := by
        have := (dpTable_bounds e e i (i + 1)).1.2
        simpa [show min i (i + 1) = i by omega] using this
      have hvB : (dpTable e e (i + 1) i).lcs ≤ gB i := by
        have := (dpTable_bounds e e (i + 1) i).1.2
        simpa [show min (i + 1) i = i by omega] using this
      have hi0 : (0 : Int) ≤ (i : Int) := Int.natCast_nonneg i
      rw [hcell, show (e (i + 1) == e (i + 1)) = true by simp, ih]
      dsimp only [dpCellCore]
      rw [show (if true = true then
            (DPCell.mk (gB i) 3 ((i : Int) + 1)).lcs +
              (if (DPCell.mk (gB i) 3 ((i : Int) + 1)).dir = 3 then
                (DPCell.mk (gB i) 3 ((i : Int) + 1)).run else 0) + 1
          else -1) = gB i + ((i : Int) + 1) + 1 by norm_num]
      rw [dpChoice_diag _ _ _ _ (by omega) (by omega)]
      have hgb : gB i + ((i : Int) + 1) + 1 = gB (i + 1) := by
        rw [gB]
        ring
      have hc : ((i : Int) + 1) + 1 = ((i + 1 : Nat) : Int) + 1 := by norm_cast
      rw [hgb, hc]


/-- When every diagonal cell chose the diagonal, the backtrack walk runs
down the main diagonal and emits nothing. -/
theorem dpBacktrack_diag_empty (tbl : Nat → Nat → DPCell)
    (hdiag : ∀ i, (tbl i i).dir = 3) :
    ∀ (i fuel : Nat), 2 * i + 1 ≤ fuel →
      dpBacktrack tbl fuel ((i : Int) - 1) ((i : Int) - 1) (i : Int) (i : Int) [] = [] := by
  intro i
  induction i with
  | zero =>
      intro fuel hf
      rcases fuel with _ | f
      · omega
      · rw [dpBacktrack]
        rw [if_neg (by omega)]
        simp
  | succ i ih =>
      intro fuel hf
      rcases fuel with _ | f
      · omega
      · rw [dpBacktrack]
        rw [if_pos (by constructor <;> omega)]
        have htn : (((i + 1 : Nat) : Int) - 1).toNat = i := by omega
        rw [htn]
        rw [if_pos (hdiag i)]
        rw [if_neg (by push_cast; omega)]
        have h1 : ((i + 1 : Nat) : Int) - 1 - 1 = (i : Int) - 1 := by push_cast; ring
        have h2 : ((i + 1 : Nat) : Int) - 1 = (i : Int) := by push_cast; ring
        rw [h1, h2]
        exact ih f (by omega)

/-- The DP algorithm on a self-comparison (both arguments the same
sequence) returns no diffs and no timeout, provided no deadline poll
fires. -/
theorem myersDp_self (s : ISeq) (timeoutMs : Int) (expired : Nat → Bool)
    (hnb : ¬(0 < timeoutMs ∧ (List.range (s.length * s.length)).any expired)) :
    myersDpDiffAlgorithm s s timeoutMs expired = ⟨[], false⟩ := by
  unfold myersDpDiffAlgorithm
  by_cases hz : s.length = 0 ∨ s.length = 0
  · rw [if_pos hz]
    rcases hz with h | h <;> rw [if_pos ⟨h, h⟩]
  · rw [if_neg hz, if_neg hnb]
    have hdiag : ∀ i, ((dpTable (fun i => s.getElement (i : Int))
        (fun i => s.getElement (i : Int))) i i).dir = 3 := by
      intro i
      rw [dpTable_diag]
    have := dpBacktrack_diag_empty _ hdiag s.length (s.length + s.length + 2) (by omega)
    show DiffResult.mk (dpBacktrack _ _ _ _ _ _ _) false = _
    rw [this]

/-! ### O(ND) Myers forward algorithm (myers.c, myers_nd_diff_algorithm)

The `V` vector and the snake-path cache support negative indices and
default to 0 / NULL; they are modelled as total functions from `Int`
updated pointwise.  A snake-path chain is the list of its nodes
`(x, y, length)`, newest first; the NULL chain is `[]`.  The unbounded
`while (!found)` loop is driven by fuel; `none` marks fuel exhaustion
(which cannot occur for fuel `len_a + len_b + 2`, as the edit distance
found is at most `len_a + len_b`). -/

/-- A snake path chain (newest node first; NULL = []). -/
abbrev SnakePath := List (Int × Int × Int)

/-- State of the Myers main loop. -/
structure NDState where
  V : Int → Int
  paths : Int → SnakePath

/-- myers_get_x_after_snake: follow the run of matching elements.  Fuel
`len_a + 1` covers the walk (each step advances x). -/
def xAfterSnake (sA sB : ISeq) : Nat → Int → Int → Int
  | 0, x, _ => x
  | f + 1, x, y =>
      if x < (sA.length : Int) ∧ y < (sB.length : Int) ∧
          sA.getElement x = sB.getElement y then
        xAfterSnake sA sB f (x + 1) (y + 1)
      else x

/-- One iteration of the inner `for (k = lower; k <= upper; k += 2)`
body; returns the new state and whether the end was reached. -/
def ndKBody (sA sB : ISeq) (lower upper : Int) (st : NDState) (k : Int) :
    NDState × Bool :=
  let lenA : Int := sA.length
  let lenB : Int := sB.length
  let maxXTop : Int := if k = upper then -1 else st.V (k + 1)
  let maxXLeft : Int := if k = lower then -1 else st.V (k - 1) + 1
  let x := min (max maxXTop maxXLeft) lenA
  let y := x - k
  if lenA < x ∨ lenB < y then (st, false)
  else
    let newMaxX := xAfterSnake sA sB (sA.length + 1) x y
    let lastPath := if x = maxXTop then st.paths (k + 1) else st.paths (k - 1)
    let newPath := if newMaxX ≠ x then (x, y, newMaxX - x) :: lastPath else lastPath
    let st1 : NDState := ⟨upd st.V k newMaxX, upd st.paths k newPath⟩
    (st1, newMaxX = lenA ∧ newMaxX - k = lenB)

/-- The ks visited by the inner loop: lower, lower+2, ..., upper. -/
def kList (lower upper : Int) : List Int :=
  (List.range ((upper - lower) / 2 + 1).toNat).map (fun n => lower + 2 * n)

/-- The inner k loop, stopping early when the end is reached. -/
def ndKLoop (sA sB : ISeq) (lower upper : Int) :
    List Int → NDState → NDState × Option Int
  | [], st => (st, none)
  | k :: rest, st =>
      let r := ndKBody sA sB lower upper st k
      if r.2 then (r.1, some k)
      else ndKLoop sA sB lower upper rest r.1

/-- Outcome of the main loop. -/
inductive NDOutcome where
  | timedOut
  | found (st : NDState) (k : Int)

/-- Diagonal bounds of one sweep: `(lower_bound, upper_bound)` for the
incremented edit distance `d1`. -/
def ndBounds (sA sB : ISeq) (d1 : Int) : Int × Int :=
  (-(min d1 ((sB.length : Int) + d1 % 2)), min d1 ((sA.length : Int) + d1 % 2))

/-- One full sweep of the k range at edit distance `d1`. -/
def ndKRun (sA sB : ISeq) (d1 : Int) (st : NDState) : NDState × Option Int :=
  ndKLoop sA sB (ndBounds sA sB d1).1 (ndBounds sA sB d1).2
    (kList (ndBounds sA sB d1).1 (ndBounds sA sB d1).2) st

/-- The main `while (!found)` loop.  Each iteration first increments `d`,
then polls the deadline (when enabled), then sweeps the k range. -/
def ndDLoop (sA sB : ISeq) (timeoutMs : Int) (expired : Nat → Bool) :
    Nat → Int → Nat → NDState → Option NDOutcome
  | 0, _, _, _ => none
  | fuel + 1, d, polls, st =>
      if 0 < timeoutMs ∧ expired polls then some .timedOut
      else
        match ndKRun sA sB (d + 1) st with
        | (st1, some k) => some (.found st1 k)
        | (st1, none) => ndDLoop sA sB timeoutMs expired fuel (d + 1) (polls + 1) st1

/-- Reconstruction of the diffs from the final snake path (the two C
passes count then fill an array back to front; prepending while walking
builds the same list). -/
def ndBuild : SnakePath → Int → Int → List SequenceDiff → List SequenceDiff
  | [], lastA, lastB, acc =>
      if 0 ≠ lastA ∨ 0 ≠ lastB then ⟨0, lastA, 0, lastB⟩ :: acc else acc
  | (x, y, len) :: prev, lastA, lastB, acc =>
      let acc' :=
        if x + len ≠ lastA ∨ y + len ≠ lastB then
          ⟨x + len, lastA, y + len, lastB⟩ :: acc
        else acc
      ndBuild prev x y acc'

/-- myers_nd_diff_algorithm. -/
def myersNdDiffAlgorithm (s1 s2 : ISeq) (timeoutMs : Int) (expired : Nat → Bool) :
    Option DiffResult :=
  let lenA := s1.length
  let lenB := s2.length
  if lenA = 0 ∨ lenB = 0 then
    some (if lenA = 0 ∧ lenB = 0 then ⟨[], false⟩
      else ⟨[⟨0, (lenA : Int), 0, (lenB : Int)⟩], false⟩)
  else
    let initialX := xAfterSnake s1 s2 (lenA + 1) 0 0
    let st0 : NDState :=
      ⟨upd (fun _ => 0) 0 initialX,
       upd (fun _ => []) 0 (if initialX = 0 then [] else [(0, 0, initialX)])⟩
    match ndDLoop s1 s2 timeoutMs expired (lenA + lenB + 2) 0 0 st0 with
    | none => none
    | some .timedOut => some ⟨[⟨0, (lenA : Int), 0, (lenB : Int)⟩], true⟩
    | some (.found st k) => some ⟨ndBuild (st.paths k) (lenA : Int) (lenB : Int) [], false⟩

theorem xAfterSnake_stop (sA sB : ISeq) (f : Nat) (x y : Int)
    (h : (sA.length : Int) ≤ x) : xAfterSnake sA sB f x y = x := by
  cases f with
  | zero => rfl
  | succ f =>
      rw [xAfterSnake, if_neg]
      rintro ⟨h1, _⟩
      omega

theorem xAfterSnake_ge (sA sB : ISeq) :
    ∀ (f : Nat) (x y : Int), x ≤ xAfterSnake sA sB f x y := by
  intro f
  induction f with
  | zero => intro x y; exact le_refl x
  | succ f ih =>
      intro x y
      rw [xAfterSnake]
      split_ifs with h
      · exact le_trans (by omega) (ih (x + 1) (y + 1))
      · exact le_refl x

theorem xAfterSnake_yBound (sA sB : ISeq) :
    ∀ (f : Nat) (x y : Int), y ≤ (sB.length : Int) →
      xAfterSnake sA sB f x y - x ≤ (sB.length : Int) - y := by
  intro f
  induction f with
  | zero => intro x y hy; simp [xAfterSnake]; omega
  | succ f ih =>
      intro x y hy
      rw [xAfterSnake]
      split_ifs with h
      · have := ih (x + 1) (y + 1) (by omega)
        omega
      · simp
        omega

theorem xAfterSnake_self (s : ISeq) :
    ∀ (f : Nat) (x : Int), 0 ≤ x → x ≤ (s.length : Int) →
      (s.length : Int) - x ≤ (f : Int) → xAfterSnake s s f x x = (s.length : Int) := by
  intro f
  induction f with
  | zero =>
      intro x h0 hle hf
      have : x = (s.length : Int) := by simp at hf; omega
      rw [this]
      rfl
  | succ f ih =>
      intro x h0 hle hf
      by_cases hx : x < (s.length : Int)
      · rw [xAfterSnake, if_pos ⟨hx, hx, rfl⟩]
        exact ih (x + 1) (by omega) (by omega) (by push_cast at hf ⊢; omega)
      · have : x = (s.length : Int) := by omega
        rw [this]
        exact xAfterSnake_stop s s _ _ _ le_rfl

/-- The Myers O(ND) algorithm on a self-comparison finds the end at edit
distance 2 (for length at least 2) and returns no diffs, provided no
deadline poll fires. -/
theorem myersNd_self (s : ISeq) (timeoutMs : Int) (expired : Nat → Bool)
    (hn : 2 ≤ s.length) (ht : ∀ n, expired n = false) :
    myersNdDiffAlgorithm s s timeoutMs expired = some ⟨[], false⟩ := by
  have hN : (2 : Int) ≤ (s.length : Int) := by exact_mod_cast hn
  set N : Int := (s.length : Int) with hNdef
  have hinit : xAfterSnake s s (s.length + 1) 0 0 = N := by
    apply xAfterSnake_self <;> push_cast <;> omega
  set V0 : Int → Int := upd (fun _ => 0) 0 N with hV0
  set P0 : Int → SnakePath := upd (fun _ => []) 0 [(0, 0, N)] with hP0
  have hv0 : V0 (0 : Int) = N := by rw [hV0]; simp [upd]
  have hkb1a : ndKBody s s (-1) 1 ⟨V0, P0⟩ (-1) = (⟨V0, P0⟩, false) := by
    simp only [ndKBody]
    norm_num [hv0]
  have hp0at0 : P0 (0 : Int) = [(0, 0, N)] := by rw [hP0]; simp [upd]
  have hstopN : xAfterSnake s s (s.length + 1) N (N - 1) = N :=
    xAfterSnake_stop s s _ N (N - 1) (by omega)
  have hx1 : min (max (-1) (N + 1)) N = N := by omega
  have hnm1 : ¬(N = -1) := by omega
  have hnsub : ¬(N - 1 = N) := by omega
  have hkb1b : ndKBody s s (-1) 1 ⟨V0, P0⟩ 1 =
      (⟨upd V0 1 N, upd P0 1 [(0, 0, N)]⟩, false) := by
    simp only [ndKBody]
    norm_num [hv0, hx1, hstopN, hnm1, hnsub, hp0at0]
  have hkl1 : kList (-1) 1 = [-1, 1] := by decide
  have hbounds1 : ndBounds s s 1 = (-1, 1) := by
    have hm : min (1 : Int) ((s.length : Int) + 1) = 1 := by omega
    unfold ndBounds
    norm_num [hm]
  have hrun1 : ndKRun s s 1 ⟨V0, P0⟩ =
      (⟨upd V0 1 N, upd P0 1 [(0, 0, N)]⟩, none) := by
    unfold ndKRun
    rw [hbounds1]
    norm_num
    rw [hkl1]
    simp [ndKLoop, hkb1a, hkb1b]
  set V1 : Int → Int := upd V0 1 N with hV1
  set P1 : Int → SnakePath := upd P0 1 [(0, 0, N)] with hP1
  set S2 : Int := xAfterSnake s s (s.length + 1) 0 2 with hS2
  have hS2b : S2 - 0 ≤ N - 2 := by
    rw [hS2]
    exact xAfterSnake_yBound s s _ 0 2 (by omega)
  have hS2ne : ¬(S2 = N) := by omega
  have hv1at1 : V1 (1 : Int) = N := by rw [hV1]; simp [upd]
  have hv1atm1 : V1 (-1 : Int) = 0 := by rw [hV1, hV0]; simp [upd]
  have hp1at1 : P1 (1 : Int) = [(0, 0, N)] := by rw [hP1]; simp [upd]
  have hp1atm1 : P1 (-1 : Int) = [] := by rw [hP1, hP0]; simp [upd]
  have hmin0N : min (0 : Int) N = 0 := by omega
  have hkb2a : ndKBody s s (-2) 2 ⟨V1, P1⟩ (-2) =
      (⟨upd V1 (-2) S2,
        upd P1 (-2) (if S2 = 0 then [] else [(0, 2, S2)])⟩, false) := by
    simp only [ndKBody]
    norm_num [hv1atm1, hp1atm1, hmin0N, hS2ne, ← hS2]
    intro h
    exfalso
    omega
  set V2 : Int → Int := upd V1 (-2) S2 with hV2
  set P2 : Int → SnakePath :=
    upd P1 (-2) (if S2 = 0 then [] else [(0, 2, S2)]) with hP2
  have hv2at1 : V2 (1 : Int) = N := by rw [hV2]; rw [upd_ne _ _ _ _ (by norm_num)]; exact hv1at1
  have hv2atm1 : V2 (-1 : Int) = 0 := by
    rw [hV2]; rw [upd_ne _ _ _ _ (by norm_num)]; exact hv1atm1
  have hp2at1 : P2 (1 : Int) = [(0, 0, N)] := by
    rw [hP2]; rw [upd_ne _ _ _ _ (by norm_num)]; exact hp1at1
  have hstopNN : xAfterSnake s s (s.length + 1) N N = N :=
    xAfterSnake_stop s s _ N N (by omega)
  have hmaxN1 : min (max N 1) N = N := by omega
  have hkb2b : ndKBody s s (-2) 2 ⟨V2, P2⟩ 0 =
      (⟨upd V2 0 N, upd P2 0 [(0, 0, N)]⟩, true) := by
    simp only [ndKBody]
    norm_num [hv2at1, hv2atm1, hp2at1, hmaxN1, hstopNN, ← hNdef]
  have hkl2 : kList (-2) 2 = [-2, 0, 2] := by decide
  have hbounds2 : ndBounds s s 2 = (-2, 2) := by
    have hm1 : min (2 : Int) ((s.length : Int) + 0) = 2 := by omega
    unfold ndBounds
    norm_num [hm1]
    exact hn
  have hrun2 : ndKRun s s 2 ⟨V1, P1⟩ = (⟨upd V2 0 N, upd P2 0 [(0, 0, N)]⟩, some 0) := by
    unfold ndKRun
    rw [hbounds2]
    norm_num
    rw [hkl2]
    simp only [ndKLoop, hkb2a]
    norm_num
    simp [ndKLoop, hkb2b]
  have hfe : s.length + s.length + 2 = (s.length + s.length + 1) + 1 := rfl
  have hfe2 : s.length + s.length + 1 = (s.length + s.length) + 1 := rfl
  have hloop : ndDLoop s s timeoutMs expired (s.length + s.length + 2) 0 0 ⟨V0, P0⟩ =
      some (.found ⟨upd V2 0 N, upd P2 0 [(0, 0, N)]⟩ 0) := by
    rw [hfe, ndDLoop]
    rw [ht 0]
    norm_num
    rw [hrun1]
    dsimp only
    rw [ndDLoop]
    rw [ht 1]
    norm_num
    rw [hrun2]
  unfold myersNdDiffAlgorithm
  rw [if_neg (by omega)]
  simp only [hinit]
  rw [if_neg (show ¬(N = 0) by omega)]
  rw [← hV0, ← hP0, hloop]
  have hpathsF : (upd P2 0 [(0, 0, N)]) (0 : Int) = [(0, 0, N)] := upd_same _ _ _
  simp only [hpathsF]
  simp [ndBuild, ← hNdef]

/-! ### Diff optimizer (optimize.c) -/

/-- A diff is a pure insertion or deletion (one empty range). -/
def insOrDel (d : SequenceDiff) : Bool :=
  d.seq1Start == d.seq1End || d.seq2Start == d.seq2End

/-- Number of successful iterations of a `for (d = 1; d <= length; d++)`
loop that breaks on the first failing condition (the C then decrements
`d` back to the last successful value). -/
def slideAmount (cond : Int → Bool) (length : Int) : Int :=
  (((List.range length.toNat).takeWhile (fun i => cond ((i : Int) + 1))).length : Int)

/-- Number of successful iterations of a `for (d = 0; d < length; d++)`
loop that breaks on the first failing condition. -/
def slideAmount0 (cond : Int → Bool) (length : Int) : Int :=
  (((List.range length.toNat).takeWhile (fun i => cond (i : Int))).length : Int)

/-- Validity of shifting `cur` left by `d` in the first
join_sequence_diffs_by_shifting pass (bounds checks and element-hash
equality of the entering and leaving positions). -/
def joinLeftCond (sA sB : ISeq) (cur : SequenceDiff) (d : Int) : Bool :=
  let p1s := cur.seq1Start - d
  let p1e := cur.seq1End - d
  let p2s := cur.seq2Start - d
  let p2e := cur.seq2End - d
  if p1s < 0 ∨ p1e < 0 ∨ p2s < 0 ∨ p2e < 0 then false
  else if (sA.length : Int) ≤ p1s ∨ (sA.length : Int) < p1e ∨
      (sB.length : Int) ≤ p2s ∨ (sB.length : Int) < p2e then false
  else (sA.getElement p1s == sA.getElement p1e) &&
    (sB.getElement p2s == sB.getElement p2e)

/-- First pass of join_sequence_diffs_by_shifting: move each
insertion/deletion left against the previous result, merging when it
slides the whole gap. -/
def joinLeftGo (sA sB : ISeq) (last : SequenceDiff) :
    List SequenceDiff → List SequenceDiff
  | [] => [last]
  | cur :: rest =>
      if insOrDel cur then
        let length := cur.seq1Start - last.seq1End
        let d := slideAmount (joinLeftCond sA sB cur) length
        if d = length then
          joinLeftGo sA sB
            ⟨last.seq1Start, cur.seq1End - length, last.seq2Start, cur.seq2End - length⟩ rest
        else
          last :: joinLeftGo sA sB
            ⟨cur.seq1Start - d, cur.seq1End - d, cur.seq2Start - d, cur.seq2End - d⟩ rest
      else last :: joinLeftGo sA sB cur rest

/-- Validity of shifting `cur` right by `d` in the second pass (bounds
checks and strong equality). -/
def joinRightCond (sA sB : ISeq) (cur : SequenceDiff) (d : Int) : Bool :=
  let p1s := cur.seq1Start + d
  let p1e := cur.seq1End + d
  let p2s := cur.seq2Start + d
  let p2e := cur.seq2End + d
  if (sA.length : Int) ≤ p1s ∨ (sA.length : Int) < p1e ∨
      (sB.length : Int) ≤ p2s ∨ (sB.length : Int) < p2e then false
  else sA.isStronglyEqual p1s p1e && sB.isStronglyEqual p2s p2e

/-- Second pass of join_sequence_diffs_by_shifting: move each
insertion/deletion right against the next diff, merging into the next
when it slides the whole gap. -/
def joinRightGo (sA sB : ISeq) (cur : SequenceDiff) :
    List SequenceDiff → List SequenceDiff
  | [] => [cur]
  | next :: rest =>
      if insOrDel cur then
        let length := next.seq1Start - cur.seq1End
        let d := slideAmount0 (joinRightCond sA sB cur) length
        if d = length then
          joinRightGo sA sB
            ⟨cur.seq1Start + length, next.seq1End, cur.seq2Start + length, next.seq2End⟩ rest
        else
          (if 0 < d then
            (⟨cur.seq1Start + d, cur.seq1End + d, cur.seq2Start + d, cur.seq2End + d⟩
              : SequenceDiff)
          else cur) :: joinRightGo sA sB next rest
      else cur :: joinRightGo sA sB next rest

/-- join_sequence_diffs_by_shifting: left pass then right pass. -/
def joinSequenceDiffsByShifting (sA sB : ISeq) (diffs : List SequenceDiff) :
    List SequenceDiff :=
  match diffs with
  | [] => []
  | first :: rest =>
      match joinLeftGo sA sB first rest with
      | [] => []
      | c :: rest1 => joinRightGo sA sB c rest1

/-- shift_diff_to_better_position: compute the admissible shift window
(at most 99 left, 100 right, bounded by the valid range and strong
equality on the second sequence), then pick the earliest delta with the
highest boundary score. -/
def shiftDiffToBetterPosition (diff : SequenceDiff) (sA sB : ISeq)
    (s1vs s1ve s2vs s2ve : Int) : SequenceDiff :=
  let condB : Int → Bool := fun δ =>
    decide (s1vs ≤ diff.seq1Start - δ) && decide (s2vs ≤ diff.seq2Start - δ) &&
      sB.isStronglyEqual (diff.seq2Start - δ) (diff.seq2End - δ) && decide (δ < 100)
  let deltaBefore := slideAmount condB 100
  let condA : Int → Bool := fun δ =>
    decide (diff.seq1Start + δ < s1ve) && decide (diff.seq2End + δ < s2ve) &&
      sB.isStronglyEqual (diff.seq2Start + δ) (diff.seq2End + δ) && decide (δ < 100)
  let deltaAfter := slideAmount0 condA 100
  if deltaBefore = 0 ∧ deltaAfter = 0 then diff
  else
    let deltas := (List.range (deltaAfter + deltaBefore + 1).toNat).map
      (fun i => -deltaBefore + (i : Int))
    let best := deltas.foldl (fun (acc : Int × Int) δ =>
        let score := sA.getBoundaryScore (diff.seq1Start + δ) +
          sB.getBoundaryScore (diff.seq2Start + δ) +
          sB.getBoundaryScore (diff.seq2End + δ)
        if acc.1 < score then (score, δ) else acc) (-1, 0)
    ⟨diff.seq1Start + best.2, diff.seq1End + best.2,
     diff.seq2Start + best.2, diff.seq2End + best.2⟩

/-- shift_sequence_diffs: walk the list, shifting each insertion or
deletion within the space left by its (already shifted) predecessor and
its successor. -/
def shiftSeqDiffsGo (sA sB : ISeq) (prev : Option SequenceDiff) :
    List SequenceDiff → List SequenceDiff
  | [] => []
  | diff :: rest =>
      let s1vs : Int := match prev with | some p => p.seq1End + 1 | none => 0
      let s1ve : Int := match rest.head? with
        | some n => n.seq1Start - 1
        | none => (sA.length : Int)
      let s2vs : Int := match prev with | some p => p.seq2End + 1 | none => 0
      let s2ve : Int := match rest.head? with
        | some n => n.seq2Start - 1
        | none => (sB.length : Int)
      let d1 :=
        if diff.seq1Start = diff.seq1End then
          shiftDiffToBetterPosition diff sA sB s1vs s1ve s2vs s2ve
        else if diff.seq2Start = diff.seq2End then
          let shifted := shiftDiffToBetterPosition
            ⟨diff.seq2Start, diff.seq2End, diff.seq1Start, diff.seq1End⟩
            sB sA s2vs s2ve s1vs s1ve
          (⟨shifted.seq2Start, shifted.seq2End, shifted.seq1Start, shifted.seq1End⟩
            : SequenceDiff)
        else diff
      d1 :: shiftSeqDiffsGo sA sB (some d1) rest

/-- optimize_sequence_diffs: join by shifting twice, then shift to better
boundaries (both sequence implementations provide boundary scoring, so
the NULL-function-pointer guard in shift_sequence_diffs never skips). -/
def optimizeSequenceDiffs (sA sB : ISeq) (diffs : List SequenceDiff) :
    List SequenceDiff :=
  shiftSeqDiffsGo sA sB none
    (joinSequenceDiffsByShifting sA sB (joinSequenceDiffsByShifting sA sB diffs))

/-- remove_short_matches: merge consecutive diffs whose gap is at most 2
in either sequence. -/
def removeShortMatchesGo (last : SequenceDiff) :
    List SequenceDiff → List SequenceDiff
  | [] => [last]
  | s :: rest =>
      if s.seq1Start - last.seq1End ≤ 2 ∨ s.seq2Start - last.seq2End ≤ 2 then
        removeShortMatchesGo ⟨last.seq1Start, s.seq1End, last.seq2Start, s.seq2End⟩ rest
      else last :: removeShortMatchesGo s rest

/-- remove_short_matches entry point. -/
def removeShortMatches (diffs : List SequenceDiff) : List SequenceDiff :=
  match diffs with
  | [] => []
  | c :: rest => removeShortMatchesGo c rest

/-! ### Unicode whitespace and the line-level very-short-gap pass
(utils.c is_unicode_whitespace, optimize.c decode_utf8 and
remove_very_short_matching_lines_between_diffs) -/

/-- is_unicode_whitespace: the fixed JavaScript whitespace set. -/
def isUnicodeWhitespace (ch : Nat) : Bool :=
  ch == 0x20 || ch == 0x9 || ch == 0xA || ch == 0xB || ch == 0xC || ch == 0xD ||
  ch == 0xA0 || ch == 0x1680 || ch == 0x2028 || ch == 0x2029 || ch == 0x202F ||
  ch == 0x205F || ch == 0x3000 || (0x2000 ≤ ch && ch ≤ 0x200A)

/-- decode_utf8 from optimize.c: decode one code point, without
validating continuation bytes; a malformed lead (or missing continuation
bytes, which read the NUL terminator) consumes one byte and yields
U+FFFD.  Returns none at the end of the string (the C returns 0). -/
def decodeUtf8 : Str → Option (Nat × Str)
  | [] => none
  | b :: rest =>
      if b < 128 then some (b, rest)
      else if b / 32 = 6 then
        match rest with
        | b1 :: rest1 => some ((b % 32) * 64 + b1 % 64, rest1)
        | [] => some (0xFFFD, rest)
      else if b / 16 = 14 then
        match rest with
        | b1 :: b2 :: rest2 =>
            some ((b % 16) * 4096 + (b1 % 64) * 64 + b2 % 64, rest2)
        | _ => some (0xFFFD, rest)
      else if b / 8 = 30 then
        match rest with
        | b1 :: b2 :: b3 :: rest3 =>
            some ((b % 8) * 262144 + (b1 % 64) * 4096 + (b2 % 64) * 64 + b3 % 64, rest3)
        | _ => some (0xFFFD, rest)
      else some (0xFFFD, rest)

/-- Count non-whitespace code points of one line, stopping on a decoded
0 as the C loop does.  Fuel: each decode consumes at least one byte. -/
def countNonWsGo : Nat → Str → Nat
  | 0, _ => 0
  | f + 1, s =>
      match decodeUtf8 s with
      | none => 0
      | some (ch, rest) =>
          if ch = 0 then 0
          else (if isUnicodeWhitespace ch then 0 else 1) + countNonWsGo f rest

/-- Non-whitespace code point count of one line. -/
def countLineNonWs (s : Str) : Nat := countNonWsGo s.length s

/-- Non-whitespace code points in the unchanged seq1 region
[ustart, uend). -/
def gapNonWsCount (lines : List Str) (ustart uend : Int) : Nat :=
  ((List.range (uend - ustart).toNat).map
    (fun i => countLineNonWs (lines.getD (ustart + (i : Int)).toNat []))).sum

/-- One sweep of remove_very_short_matching_lines_between_diffs: join
`cur` into the accumulated `last` when the unchanged gap has at most 4
non-whitespace code points and either side spans more than 5 total
lines; the Bool reports whether any join happened. -/
def rvslSweepGo (lines : List Str) (last : SequenceDiff) :
    List SequenceDiff → Bool → List SequenceDiff × Bool
  | [], rep => ([last], rep)
  | cur :: rest, rep =>
      let nonWs := gapNonWsCount lines last.seq1End cur.seq1Start
      let beforeTotal := (last.seq1End - last.seq1Start) + (last.seq2End - last.seq2Start)
      let afterTotal := (cur.seq1End - cur.seq1Start) + (cur.seq2End - cur.seq2Start)
      if nonWs ≤ 4 ∧ (5 < beforeTotal ∨ 5 < afterTotal) then
        rvslSweepGo lines ⟨last.seq1Start, cur.seq1End, last.seq2Start, cur.seq2End⟩ rest true
      else
        let r := rvslSweepGo lines cur rest rep
        (last :: r.1, r.2)

/-- One sweep over a whole diff list. -/
def rvslSweep (lines : List Str) (diffs : List SequenceDiff) :
    List SequenceDiff × Bool :=
  match diffs with
  | [] => ([], false)
  | c :: rest => rvslSweepGo lines c rest false

/-- The do/while driver: `fuel` sweeps remain (the C
`while (counter++ < 10 && should_repeat)` performs the initial sweep plus
at most 10 repeats, 11 sweeps in total). -/
def rvslLoop (lines : List Str) : Nat → List SequenceDiff → List SequenceDiff
  | 0, diffs => diffs
  | f + 1, diffs =>
      let r := rvslSweep lines diffs
      if r.2 then rvslLoop lines f r.1 else r.1

/-- remove_very_short_matching_lines_between_diffs. -/
def removeVeryShortMatchingLinesBetweenDiffs (lines : List Str)
    (diffs : List SequenceDiff) : List SequenceDiff :=
  match diffs with
  | [] => []
  | _ => rvslLoop lines 11 diffs

/-! ### Character boundary categories and scores (sequence.c) -/

/-- CharBoundaryCategory from sequence.c. -/
inductive CharBoundaryCategory where
  | wordLower
  | wordUpper
  | wordNumber
  | endCat
  | other
  | separator
  | space
  | lineBreakCR
  | lineBreakLF
  deriving DecidableEq, Repr

/-- get_char_category: classify a character code (`-1` marks
out-of-range). -/
def getCharCategory (c : Int) : CharBoundaryCategory :=
  if c = 10 then .lineBreakLF
  else if c = 13 then .lineBreakCR
  else if c = 32 ∨ c = 9 then .space
  else if 97 ≤ c ∧ c ≤ 122 then .wordLower
  else if 65 ≤ c ∧ c ≤ 90 then .wordUpper
  else if 48 ≤ c ∧ c ≤ 57 then .wordNumber
  else if c = -1 then .endCat
  else if c = 44 ∨ c = 59 then .separator
  else .other

/-- get_category_boundary_score: the static score table. -/
def getCategoryBoundaryScore : CharBoundaryCategory → Int
  | .wordLower => 0
  | .wordUpper => 0
  | .wordNumber => 0
  | .endCat => 10
  | .other => 2
  | .separator => 30
  | .space => 3
  | .lineBreakCR => 10
  | .lineBreakLF => 10

/-- The category-level part of char_seq_get_boundary_score (everything
after the two categories are computed). -/
def charBoundaryScoreCats (p n : CharBoundaryCategory) : Int :=
  if p = .lineBreakCR ∧ n = .lineBreakLF then 0
  else if p = .lineBreakLF then 150
  else
    (if p ≠ n then
      (10 : Int) + (if p = .wordLower ∧ n = .wordUpper then 1 else 0)
    else 0) + getCategoryBoundaryScore p + getCategoryBoundaryScore n

/-- The character before position `len` (`-1` when out of range). -/
def prevCharAt (elements : List Nat) (len : Int) : Int :=
  if 0 < len then (elemAt elements (len - 1) 0 : Int) else -1

/-- The character at position `len` (`-1` when out of range). -/
def nextCharAt (elements : List Nat) (len : Int) : Int :=
  if len < (elements.length : Int) then (elemAt elements len 0 : Int) else -1

/-- char_seq_get_boundary_score over the flat elements array. -/
def charSeqGetBoundaryScore (elements : List Nat) (len : Int) : Int :=
  charBoundaryScoreCats (getCharCategory (prevCharAt elements len))
    (getCharCategory (nextCharAt elements len))

/-! ### UTF-8 decoding (utf8proc as used by utf8_utils.c) -/

/-- A UTF-8 continuation byte. -/
def isContByte (b : Nat) : Bool := 128 ≤ b && b < 192

/-- utf8proc_iterate: decode the next code point of a well-formed UTF-8
stream, rejecting stray continuation bytes, overlong forms, surrogates
and values beyond U+10FFFF (none on a malformed or empty stream). -/
def utf8Iterate : Str → Option (Nat × Str)
  | [] => none
  | b :: rest =>
      if b < 128 then some (b, rest)
      else if b < 194 then none
      else if b < 224 then
        match rest with
        | b1 :: r1 =>
            if isContByte b1 then some ((b - 192) * 64 + (b1 - 128), r1) else none
        | [] => none
      else if b < 240 then
        match rest with
        | b1 :: b2 :: r2 =>
            if isContByte b1 && isContByte b2 then
              let cp := (b - 224) * 4096 + (b1 - 128) * 64 + (b2 - 128)
              if cp < 2048 ∨ (55296 ≤ cp ∧ cp < 57344) then none else some (cp, r2)
            else none
        | _ => none
      else if b < 245 then
        match rest with
        | b1 :: b2 :: b3 :: r3 =>
            if isContByte b1 && isContByte b2 && isContByte b3 then
              let cp := (b - 240) * 262144 + (b1 - 128) * 4096 + (b2 - 128) * 64 + (b3 - 128)
              if cp < 65536 ∨ 1114112 ≤ cp then none else some (cp, r3)
            else none
        | _ => none
      else none

/-- utf8_to_utf16_length: UTF-16 code units of a UTF-8 byte string (a
code point above U+FFFF counts 2); the C loop stops at a malformed
byte.  Fuel: a decode consumes at least one byte. -/
def utf16LenGo : Nat → Str → Nat
  | 0, _ => 0
  | f + 1, s =>
      match utf8Iterate s with
      | none => 0
      | some (cp, rest) => (if cp ≤ 65535 then 1 else 2) + utf16LenGo f rest

/-- utf8_to_utf16_length / get_utf16_substring_length on a byte slice. -/
def utf16Len (s : Str) : Nat := utf16LenGo s.length s

/-! ### CharSequence per-line trimming
(sequence.c char_sequence_create_from_range, PASS 1) -/

/-- The whitespace-trimming step applied to one line's selected byte
slice: when whitespace is not considered, skip leading bytes with C
`isspace`, record the skipped prefix's UTF-16 length as the line's
trimmed_ws value, and drop trailing `isspace` bytes. -/
def charSeqLineTrim (slice : Str) (considerWs : Bool) : Str × Nat :=
  if considerWs then (slice, 0)
  else
    let ws := slice.takeWhile isspaceByte
    let afterLeading := slice.dropWhile isspaceByte
    let trimmed := (afterLeading.reverse.dropWhile isspaceByte).reverse
    (trimmed, utf16Len ws)

/-- Modelled from the spec: §4.4 step 2 trims leading code points
classified as whitespace by the §4.2 Unicode set (is_unicode_whitespace)
from the line's selected slice.  Fuel: a decode consumes at least one
byte. -/
def specDropLeadingWs : Nat → Str → Str
  | 0, s => s
  | f + 1, s =>
      match utf8Iterate s with
      | some (cp, rest) =>
          if isUnicodeWhitespace cp then specDropLeadingWs f rest else s
      | none => s

/-! ### Allocation failure behaviour (utils.c) -/

/-- Outcome of the underlying malloc/realloc call. -/
inductive AllocOutcome where
  | success
  | failure
  deriving DecidableEq, Repr

/-- How an allocation wrapper behaves towards its caller: it either
returns (possibly a null pointer) or terminates the whole process. -/
inductive AllocBehaviour where
  | returns (isNull : Bool)
  | exits (code : Int)
  deriving DecidableEq, Repr

/-- mem_alloc: on a failed allocation of a positive size it prints to
stderr and calls exit(1); a zero-size null result is returned as-is. -/
def mem_alloc (size : Nat) : AllocOutcome → AllocBehaviour
  | .success => .returns false
  | .failure => if 0 < size then .exits 1 else .returns true

/-- mem_realloc: same failure policy as mem_alloc. -/
def mem_realloc (size : Nat) : AllocOutcome → AllocBehaviour
  | .success => .returns false
  | .failure => if 0 < size then .exits 1 else .returns true

/-! ### Word/sub-word extension scan (char_level.c scan_word)

The scan accesses the two character sequences only through
char_sequence_find_word_containing / char_sequence_find_subword_containing,
so those lookups are passed in as functions (`use_subwords` selects which
concrete finder the context carries). -/

/-- The mutable scan state carried through extend_diffs_to_entire_word:
the high-water offsets, the queue position into the equal mappings, and
the additional diffs emitted so far. -/
structure ScanState where
  lastOffset1 : Int
  lastOffset2 : Int
  queuePos : Nat
  additional : List SequenceDiff
  deriving DecidableEq, Repr

/-- The queue-consuming loop of scan_word: while the next equal mapping
intersects the word, look up the word at its start, sum the equal
intersection lengths, union the extents, and consume the mapping when
the joined word reaches past its end.  Returns the joined word, the
accumulated equal length, and the new queue position.  Fuel: each
continuing iteration advances the queue position. -/
def scanWordLoop (find1 find2 : Int → Option (Int × Int))
    (allEqual : List SequenceDiff) :
    Nat → Nat → SequenceDiff → Int → SequenceDiff × Int × Nat
  | 0, pos, word, eq => (word, eq, pos)
  | f + 1, pos, word, eq =>
      match allEqual[pos]? with
      | none => (word, eq, pos)
      | some next =>
          let intersects :=
            (next.seq1Start < word.seq1End && word.seq1Start < next.seq1End) ||
              (next.seq2Start < word.seq2End && word.seq2Start < next.seq2End)
          if !intersects then (word, eq, pos)
          else
            match find1 next.seq1Start, find2 next.seq2Start with
            | some (v1s, v1e), some (v2s, v2e) =>
                let vEq1 := max 0 (min v1e next.seq1End - max v1s next.seq1Start)
                let vEq2 := max 0 (min v2e next.seq2End - max v2s next.seq2Start)
                let word2 : SequenceDiff :=
                  ⟨min word.seq1Start v1s, max word.seq1End v1e,
                   min word.seq2Start v2s, max word.seq2End v2e⟩
                let eq2 := eq + vEq1 + vEq2
                if next.seq1End ≤ word2.seq1End then
                  scanWordLoop find1 find2 allEqual f (pos + 1) word2 eq2
                else (word2, eq2, pos)
            | _, _ => (word, eq, pos)

/-- The extension criterion of scan_word:
`(ctx->force && equal_len < word_len) || (equal_len < word_len * 2.0 / 3.0)`.
The right comparison is computed by the C in f64 after dividing; for the
`int` operands that reach it, the f64 value of `word_len * 2.0 / 3.0`
rounds by strictly less than the distance to any integer, so the
comparison agrees with the exact rational value used here. -/
def shouldExtendWord (force : Bool) (equalLen wordLen : Int) : Bool :=
  (force && decide (equalLen < wordLen)) ||
    decide ((equalLen : ℚ) < (wordLen : ℚ) * 2 / 3)

/-- scan_word: guard against rescanning, find the words containing the
two offsets, seed the equal count from the current equal mapping, run
the queue-consuming loop, and append the joined word to the additional
diffs when the extension criterion holds. -/
def scanWord (find1 find2 : Int → Option (Int × Int)) (force : Bool)
    (allEqual : List SequenceDiff) (cur : SequenceDiff)
    (offset1 offset2 : Int) (st : ScanState) : ScanState :=
  if offset1 < st.lastOffset1 ∨ offset2 < st.lastOffset2 then st
  else
    match find1 offset1, find2 offset2 with
    | some (w1s, w1e), some (w2s, w2e) =>
        let eq0 := max 0 (min w1e cur.seq1End - max w1s cur.seq1Start) +
          max 0 (min w2e cur.seq2End - max w2s cur.seq2Start)
        let r := scanWordLoop find1 find2 allEqual (allEqual.length + 1)
          st.queuePos ⟨w1s, w1e, w2s, w2e⟩ eq0
        let wordLen := (r.1.seq1End - r.1.seq1Start) + (r.1.seq2End - r.1.seq2Start)
        { lastOffset1 := r.1.seq1End
          lastOffset2 := r.1.seq2End
          queuePos := r.2.2
          additional :=
            if shouldExtendWord force r.2.1 wordLen then st.additional ++ [r.1]
            else st.additional }
    | _, _ => st

/-! ### Range mapping types and conversion (range_mapping.c) -/

/-- A (line, col) character range, 1-based as in the C structs. -/
structure CharRange where
  startLine : Int
  startCol : Int
  endLine : Int
  endCol : Int
  deriving DecidableEq, Repr

/-- RangeMapping: one character-level change. -/
structure RangeMapping where
  original : CharRange
  modified : CharRange
  deriving DecidableEq, Repr

/-- LineRange with exclusive end line. -/
structure LineRange where
  startLine : Int
  endLine : Int
  deriving DecidableEq, Repr

/-- DetailedLineRangeMapping: a line-level change record with its inner
character changes. -/
structure DetailedLineRangeMapping where
  original : LineRange
  modified : LineRange
  innerChanges : List RangeMapping
  deriving DecidableEq, Repr

/-- The LinesDiff result (moves are always empty in this port). -/
structure LinesDiff where
  changes : List DetailedLineRangeMapping
  hitTimeout : Bool
  deriving DecidableEq, Repr

/-- line_range_join. -/
def lineRangeJoin (a b : LineRange) : LineRange :=
  ⟨min a.startLine b.startLine, max a.endLine b.endLine⟩

/-- line_range_intersects_or_touches. -/
def lineRangeIntersectsOrTouches (a b : LineRange) : Bool :=
  a.startLine ≤ b.endLine && b.startLine ≤ a.endLine

/-- get_line_length: byte length of the 1-based line, 0 out of range. -/
def getLineLength (lines : List Str) (lineNumber : Int) : Int :=
  if lineNumber < 1 ∨ (lines.length : Int) < lineNumber then 0
  else ((lines.getD (lineNumber - 1).toNat []).length : Int)

/-- get_line_range_mapping: compute the end delta (both columns 1 and a
still-nonempty range exclude the final line) and the start delta (both
starts past end-of-line move to the next line), then build the line
ranges with the original mapping as the single inner change.  In the
first condition the C adds `line_start_delta`, which is still 0 at that
point. -/
def getLineRangeMapping (rm : RangeMapping) (origLines modLines : List Str) :
    DetailedLineRangeMapping :=
  let lineEndDelta : Int :=
    if rm.modified.endCol = 1 ∧ rm.original.endCol = 1 ∧
        rm.original.startLine ≤ rm.original.endLine ∧
        rm.modified.startLine ≤ rm.modified.endLine then -1 else 0
  let lineStartDelta : Int :=
    if getLineLength modLines rm.modified.startLine ≤ rm.modified.startCol - 1 ∧
        getLineLength origLines rm.original.startLine ≤ rm.original.startCol - 1 ∧
        rm.original.startLine ≤ rm.original.endLine + lineEndDelta ∧
        rm.modified.startLine ≤ rm.modified.endLine + lineEndDelta then 1 else 0
  { original := ⟨rm.original.startLine + lineStartDelta,
      rm.original.endLine + 1 + lineEndDelta⟩
    modified := ⟨rm.modified.startLine + lineStartDelta,
      rm.modified.endLine + 1 + lineEndDelta⟩
    innerChanges := [rm] }

/-- should_group_detailed_mappings. -/
def shouldGroupDetailedMappings (a b : DetailedLineRangeMapping) : Bool :=
  lineRangeIntersectsOrTouches a.original b.original ||
    lineRangeIntersectsOrTouches a.modified b.modified

/-- group_adjacent_detailed_mappings walk: the current group is carried
reversed so its head is the last item added. -/
def groupAdjacentGo (curRev : List DetailedLineRangeMapping) :
    List DetailedLineRangeMapping → List (List DetailedLineRangeMapping)
  | [] => [curRev.reverse]
  | x :: rest =>
      match curRev.head? with
      | some lastItem =>
          if shouldGroupDetailedMappings lastItem x then
            groupAdjacentGo (x :: curRev) rest
          else curRev.reverse :: groupAdjacentGo [x] rest
      | none => groupAdjacentGo [x] rest

/-- group_adjacent_detailed_mappings. -/
def groupAdjacentDetailedMappings :
    List DetailedLineRangeMapping → List (List DetailedLineRangeMapping)
  | [] => []
  | x :: rest => groupAdjacentGo [x] rest

/-- Join one group: union the first and last line ranges; collect each
member's single inner change. -/
def joinGroup (g : List DetailedLineRangeMapping) : DetailedLineRangeMapping :=
  match g with
  | [] => ⟨⟨0, 0⟩, ⟨0, 0⟩, []⟩
  | first :: _ =>
      let last := (g.getLast?).getD first
      { original := lineRangeJoin first.original last.original
        modified := lineRangeJoin first.modified last.modified
        innerChanges := g.flatMap (fun it => it.innerChanges.take 1) }

/-- line_range_mapping_from_range_mappings. -/
def lineRangeMappingFromRangeMappings (alignments : List RangeMapping)
    (origLines modLines : List Str) : List DetailedLineRangeMapping :=
  if alignments.isEmpty then []
  else
    (groupAdjacentDetailedMappings
      (alignments.map (fun rm => getLineRangeMapping rm origLines modLines))).map
      joinGroup

/-! ### Orchestrator (default_lines_diff_computer.c) -/

/-- arrays_equal: same length and strcmp-equal element-wise, i.e. list
equality of the byte strings. -/
def arraysEqual (a b : List Str) : Bool := a == b

/-- create_empty_lines_diff. -/
def createEmptyLinesDiff : LinesDiff := ⟨[], false⟩

/-- create_full_file_diff: one change covering both whole files with one
inner change spanning the full bodies. -/
def createFullFileDiff (origLines modLines : List Str) : LinesDiff :=
  let origEndCol : Int :=
    if 0 < origLines.length then (((origLines.getLast?).getD []).length : Int) + 1 else 1
  let modEndCol : Int :=
    if 0 < modLines.length then (((modLines.getLast?).getD []).length : Int) + 1 else 1
  ⟨[{ original := ⟨1, (origLines.length : Int) + 1⟩
      modified := ⟨1, (modLines.length : Int) + 1⟩
      innerChanges := [⟨⟨1, 1, (origLines.length : Int), origEndCol⟩,
        ⟨1, 1, (modLines.length : Int), modEndCol⟩⟩] }], false⟩

/-- The character-level refiner (refine_diff wrapping
refine_diff_char_level) abstracted as a function from a line-level diff
to its character mappings and timeout flag.  The orchestrator is
parametric in it, so the orchestrator theorems hold for every refiner,
the concrete one included. -/
def Refiner : Type := SequenceDiff → List RangeMapping × Bool

/-- scan_for_whitespace_changes: over the `equalCount` aligned equal
lines, refine each pair that differs byte-for-byte, appending the
resulting mappings and OR-ing the timeout flags. -/
def scanForWhitespaceChanges (refine : Refiner) (equalCount : Nat)
    (seq1LastStart seq2LastStart : Int) (origLines modLines : List Str)
    (considerWs : Bool) : List RangeMapping × Bool :=
  if !considerWs then ([], false)
  else
    (List.range equalCount).foldl
      (fun acc i =>
        let o1 := seq1LastStart + (i : Int)
        let o2 := seq2LastStart + (i : Int)
        if origLines.getD o1.toNat [] = modLines.getD o2.toNat [] then acc
        else
          let r := refine ⟨o1, o1 + 1, o2, o2 + 1⟩
          (acc.1 ++ r.1, acc.2 || r.2))
      ([], false)

/-- Modelled from the spec: compute_line_alignments (line_level.c is not
among the repository's sources).  Per the §2 data flow with §4.3, §4.5
and §4.6: build the two line sequences over one shared interner with
whitespace-trimmed element ids (per §4.3 and §8 scenario 5, whitespace-
only line changes are invisible at line level), run the size-selected
LCS (dense DP when `len1 + len2 < 1700`, else Myers O(ND)), then the
optimizer — join-by-shifting twice plus boundary-score shifting
(optimize_sequence_diffs, §4.6.1–4.6.2) and the line-level
very-short-gap merging of §4.6.4.  The Myers fuel bound always suffices;
its exhaustion default never fires. -/
def computeLineAlignments (origLines modLines : List Str) (timeoutMs : Int)
    (expired : Nat → Bool) : DiffResult :=
  let p1 := lineSequence origLines true emptyMap
  let s2 := (lineSequence modLines true p1.2).1
  let s1 := p1.1
  let raw :=
    if s1.length + s2.length < 1700 then
      myersDpDiffAlgorithm s1 s2 timeoutMs expired
    else
      (myersNdDiffAlgorithm s1 s2 timeoutMs expired).getD
        ⟨[⟨0, (s1.length : Int), 0, (s2.length : Int)⟩], true⟩
  let optimized := optimizeSequenceDiffs s1 s2 raw.diffs
  ⟨removeVeryShortMatchingLinesBetweenDiffs origLines optimized, raw.hitTimeout⟩

/-- compute_diff, sequential path: the two fast paths, the line-level
diff, the per-diff whitespace scans and refinements, the trailing scan,
and the conversion to grouped line mappings. -/
def computeDiff (refine : Refiner) (origLines modLines : List Str)
    (ignoreTrimWhitespace : Bool) (timeoutMs : Int) (expired : Nat → Bool) :
    LinesDiff :=
  if origLines.length ≤ 1 ∧ arraysEqual origLines modLines then
    createEmptyLinesDiff
  else if (origLines.length = 1 ∧ (origLines.getD 0 []).length = 0) ∨
      (modLines.length = 1 ∧ (modLines.getD 0 []).length = 0) then
    createFullFileDiff origLines modLines
  else
    let considerWs := !ignoreTrimWhitespace
    let la := computeLineAlignments origLines modLines timeoutMs expired
    let res := la.diffs.foldl
      (fun (acc : List RangeMapping × Bool × Int × Int) d =>
        let equalCount := (d.seq1Start - acc.2.2.1).toNat
        let ws := scanForWhitespaceChanges refine equalCount acc.2.2.1 acc.2.2.2
          origLines modLines considerWs
        let r := refine d
        (acc.1 ++ ws.1 ++ r.1, ((acc.2.1 || ws.2) || r.2), d.seq1End, d.seq2End))
      ([], la.hitTimeout, 0, 0)
    let remaining := ((origLines.length : Int) - res.2.2.1).toNat
    let wsFinal := scanForWhitespaceChanges refine remaining res.2.2.1 res.2.2.2
      origLines modLines considerWs
    ⟨lineRangeMappingFromRangeMappings (res.1 ++ wsFinal.1) origLines modLines,
      res.2.1 || wsFinal.2⟩

/-! ### Identity-input facts for the orchestrator -/

theorem internAll_twice (ss : List Str) :
    (internAll ss (internAll ss emptyMap).2).1 = (internAll ss emptyMap).1 := by
  apply List.ext_getElem?
  intro i
  by_cases hi : i < ss.length
  · have h1 := @internAll_ids ss emptyMap [] emptyMap_wf i hi
    have hwf := @internAll_wf ss emptyMap [] emptyMap_wf
    have h2 := @internAll_ids ss _ _ hwf i hi
    rw [h1, h2]
    have hext : extKeysAll (extKeysAll [] ss) ss = extKeysAll [] ss :=
      extKeysAll_of_all_mem ss _ (fun s hs => mem_extKeysAll_of_mem ss [] hs)
    rw [hext]
  · have hl1 : (internAll ss emptyMap).1.length = ss.length := internAll_length ss _
    have hl2 : (internAll ss (internAll ss emptyMap).2).1.length = ss.length :=
      internAll_length ss _
    rw [List.getElem?_eq_none (by omega), List.getElem?_eq_none (by omega)]

theorem lineSequence_shared_self (lines : List Str) :
    (lineSequence lines true (lineSequence lines true emptyMap).2).1 =
      (lineSequence lines true emptyMap).1 := by
  have hl : ∀ m : StringHashMap, (lineSequence lines true m).1 =
      { length := lines.length
        getElement := fun i =>
          if i < 0 ∨ (lines.length : Int) ≤ i then 0
          else (internAll (lines.map trimString) m).1.getD i.toNat 0
        isStronglyEqual := fun i j =>
          if i < 0 ∨ (lines.length : Int) ≤ i ∨ j < 0 ∨ (lines.length : Int) ≤ j then
            false
          else lines.getD i.toNat [] == lines.getD j.toNat []
        getBoundaryScore := lineBoundaryScore lines } := fun m => rfl
  have h2 : (lineSequence lines true emptyMap).2 =
      (internAll (lines.map trimString) emptyMap).2 := rfl
  rw [hl, hl, h2, internAll_twice]

theorem foldl_const {α β : Type} (f : β → α → β) (h : ∀ b a, f b a = b) :
    ∀ (l : List α) (b : β), l.foldl f b = b := by
  intro l
  induction l with
  | nil => intro b; rfl
  | cons a t ih => intro b; rw [List.foldl_cons, h]; exact ih b

theorem scanForWhitespaceChanges_self (refine : Refiner) (n : Nat) (k k2 : Int)
    (lines : List Str) (cw : Bool) (hk : k = k2) :
    scanForWhitespaceChanges refine n k k2 lines lines cw = ([], false) := by
  subst hk
  unfold scanForWhitespaceChanges
  cases cw
  · rfl
  · simp only [Bool.not_true, Bool.false_eq_true, if_false]
    exact foldl_const _ (fun b a => by simp) _ _

theorem optimizeSequenceDiffs_nil (sA sB : ISeq) :
    optimizeSequenceDiffs sA sB [] = [] := rfl

theorem computeLineAlignments_self (lines : List Str) (timeoutMs : Int)
    (expired : Nat → Bool) (hexp : ∀ n, expired n = false) :
    computeLineAlignments lines lines timeoutMs expired = ⟨[], false⟩ := by
  unfold computeLineAlignments
  dsimp only
  rw [lineSequence_shared_self]
  set s := (lineSequence lines true emptyMap).1 with hs
  by_cases hsel : s.length + s.length < 1700
  · rw [if_pos hsel]
    have hnb : ¬(0 < timeoutMs ∧ (List.range (s.length * s.length)).any expired) := by
      intro h
      rcases List.any_eq_true.mp h.2 with ⟨x, _, hx⟩
      rw [hexp x] at hx
      exact Bool.false_ne_true hx
    rw [myersDp_self s timeoutMs expired hnb]
    rfl
  · rw [if_neg hsel]
    have hn : 2 ≤ s.length := by omega
    rw [myersNd_self s timeoutMs expired hn hexp]
    rfl

/-- C1: for byte-identical line arrays, compute_diff returns an empty
changes list and hit_timeout = false, for every refiner, option setting
and deadline whose clock polls never report expiry (a breached deadline
is the separate behaviour covered by the timeout clause). -/
theorem C1_identity (refine : Refiner) (lines : List Str)
    (ignoreTrimWhitespace : Bool) (timeoutMs : Int) (expired : Nat → Bool)
    (hexp : ∀ n, expired n = false) :
    computeDiff refine lines lines ignoreTrimWhitespace timeoutMs expired =
      ⟨[], false⟩ := by
  unfold computeDiff
  by_cases hsmall : lines.length ≤ 1
  · rw [if_pos ⟨hsmall, by simp [arraysEqual]⟩]
    rfl
  · rw [if_neg (fun h => hsmall h.1)]
    rw [if_neg (by rintro (⟨h1, _⟩ | ⟨h1, _⟩) <;> omega)]
    dsimp only
    rw [computeLineAlignments_self lines timeoutMs expired hexp]
    dsimp only [List.foldl_nil]
    rw [scanForWhitespaceChanges_self _ _ _ _ _ _ rfl]
    rfl

/-- Witness for C1 at scenario 1 of the spec (`["a","b","c"]`). -/
theorem C1_identity_witness :
    computeDiff (fun _ => ([], false)) [[97], [98], [99]] [[97], [98], [99]]
      false 0 (fun _ => false) = ⟨[], false⟩ :=
  C1_identity _ _ _ _ _ (fun _ => rfl)

/-! ### Facts for the interner contract -/

theorem mem_of_mem_extKeysAll {x : Str} (ss : List Str) :
    ∀ ks, x ∈ extKeysAll ks ss → x ∈ ks ∨ x ∈ ss := by
  induction ss with
  | nil => intro ks h; exact Or.inl h
  | cons a rest ih =>
      intro ks h
      have h1 : extKeysAll ks (a :: rest) = extKeysAll (extKeys ks a) rest := rfl
      rw [h1] at h
      rcases ih _ h with hk | hr
      · unfold extKeys at hk
        by_cases ha : a ∈ ks
        · rw [if_pos ha] at hk
          exact Or.inl hk
        · rw [if_neg ha] at hk
          rcases List.mem_append.mp hk with h' | h'
          · exact Or.inl h'
          · exact Or.inr (List.mem_cons.mpr (Or.inl (List.mem_singleton.mp h')))
      · exact Or.inr (List.mem_cons_of_mem _ hr)

theorem firstIdx_new_position (ss : List Str) (i : Nat) (hi : i < ss.length)
    (hnew : ss[i] ∉ ss.take i) :
    firstIdx ss[i] (extKeysAll [] ss) = (extKeysAll [] (ss.take i)).length := by
  have hsplit : extKeysAll [] ss =
      extKeysAll (extKeysAll [] (ss.take i)) (ss.drop i) := by
    conv_lhs => rw [← List.take_append_drop i ss]
    exact List.foldl_append _ _ _ _
  have hdrop : ss.drop i = ss[i] :: ss.drop (i + 1) := List.drop_eq_getElem_cons hi
  have hKi : ss[i] ∉ extKeysAll [] (ss.take i) := by
    intro hmem
    rcases mem_of_mem_extKeysAll _ _ hmem with h | h
    · simp at h
    · exact hnew h
  rw [hsplit, hdrop]
  have h1 : extKeysAll (extKeysAll [] (ss.take i)) (ss[i] :: ss.drop (i + 1)) =
      extKeysAll (extKeysAll [] (ss.take i) ++ [ss[i]]) (ss.drop (i + 1)) := by
    show extKeysAll (extKeys _ _) _ = _
    unfold extKeys
    rw [if_neg hKi]
  rw [h1]
  rcases extKeysAll_exists_append (ss.drop (i + 1))
    (extKeysAll [] (ss.take i) ++ [ss[i]]) with ⟨t, ht⟩
  rw [ht]
  have hmem : ss[i] ∈ extKeysAll [] (ss.take i) ++ [ss[i]] :=
    List.mem_append_right _ (List.mem_singleton.mpr rfl)
  rw [firstIdx_append_of_mem hmem, firstIdx_append_self hKi]

/-- C3: over any call sequence on a fresh interner, every returned id is
below the final size, ids agree exactly on byte-equal strings, and a
string not seen before is assigned the interner's size at the moment of
its call (so ids are dense and sequential). -/
theorem C3_interner (ss : List Str) (i j : Nat) (hi : i < ss.length)
    (hj : j < ss.length) :
    (internAll ss emptyMap).1.length = ss.length ∧
    (internAll ss emptyMap).1.getD i 0 < (internAll ss emptyMap).2.size ∧
    ((internAll ss emptyMap).1.getD i 0 = (internAll ss emptyMap).1.getD j 0 ↔
      ss.getD i [] = ss.getD j []) ∧
    (ss.getD i [] ∉ ss.take i →
      (internAll ss emptyMap).1.getD i 0 = (internAll (ss.take i) emptyMap).2.size) := by
  have hwf := @internAll_wf ss emptyMap [] emptyMap_wf
  have hsize : (internAll ss emptyMap).2.size = (extKeysAll [] ss).length := hwf.2.1
  have hlen := internAll_length ss emptyMap
  have hmemi : ss.getD i [] ∈ ss := by
    rw [List.getD_eq_getElem ss [] hi]
    exact List.getElem_mem hi
  have hmemj : ss.getD j [] ∈ ss := by
    rw [List.getD_eq_getElem ss [] hj]
    exact List.getElem_mem hj
  have hKi : ss.getD i [] ∈ extKeysAll [] ss := mem_extKeysAll_of_mem ss [] hmemi
  have hKj : ss.getD j [] ∈ extKeysAll [] ss := mem_extKeysAll_of_mem ss [] hmemj
  have hgdi : (internAll ss emptyMap).1.getD i 0 =
      firstIdx (ss.getD i []) (extKeysAll [] ss) := by
    have h1 := @internAll_ids ss emptyMap [] emptyMap_wf i hi
    rw [List.getElem?_eq_getElem (by omega)] at h1
    rw [List.getD_eq_getElem _ _ (by omega)]
    exact Option.some.inj h1
  have hgdj : (internAll ss emptyMap).1.getD j 0 =
      firstIdx (ss.getD j []) (extKeysAll [] ss) := by
    have h1 := @internAll_ids ss emptyMap [] emptyMap_wf j hj
    rw [List.getElem?_eq_getElem (by omega)] at h1
    rw [List.getD_eq_getElem _ _ (by omega)]
    exact Option.some.inj h1
  refine ⟨hlen, ?_, ?_, ?_⟩
  · rw [hgdi, hsize]
    exact firstIdx_lt_length hKi
  · rw [hgdi, hgdj]
    constructor
    · intro h
      have h1 := getD_firstIdx hKi
      have h2 := getD_firstIdx hKj
      rw [← h1, ← h2, h]
    · intro h
      rw [h]
  · intro hnew
    have hge : ss.getD i [] = ss[i] := List.getD_eq_getElem ss [] hi
    have hwfi := @internAll_wf (ss.take i) emptyMap [] emptyMap_wf
    rw [hgdi, hwfi.2.1, hge]
    rw [hge] at hnew
    exact firstIdx_new_position ss i hi hnew

/-- Witness for C3: interning `"a", "b", "a"` — the repeat of `"a"` gets
id 0 back, `"b"` got 1, and the final size is 2. -/
theorem C3_interner_witness :
    (internAll [[97], [98], [97]] emptyMap).1.length = 3 ∧
    (internAll [[97], [98], [97]] emptyMap).1.getD 0 0 <
      (internAll [[97], [98], [97]] emptyMap).2.size ∧
    ((internAll [[97], [98], [97]] emptyMap).1.getD 0 0 =
        (internAll [[97], [98], [97]] emptyMap).1.getD 2 0 ↔
      ([[97], [98], [97]] : List Str).getD 0 [] = [[97], [98], [97]].getD 2 []) ∧
    (([[97], [98], [97]] : List Str).getD 0 [] ∉ ([[97], [98], [97]] : List Str).take 0 →
      (internAll [[97], [98], [97]] emptyMap).1.getD 0 0 =
        (internAll (([[97], [98], [97]] : List Str).take 0) emptyMap).2.size) :=
  C3_interner [[97], [98], [97]] 0 2 (by decide) (by decide)

/-! ### Deadline behaviour of the two LCS algorithms -/

theorem ndDLoop_zero_no_timeout (sA sB : ISeq) (expired : Nat → Bool) :
    ∀ (fuel : Nat) (d : Int) (polls : Nat) (st : NDState),
      ndDLoop sA sB 0 expired fuel d polls st ≠ some .timedOut := by
  intro fuel
  induction fuel with
  | zero =>
      intro d polls st h
      exact Option.noConfusion h
  | succ f ih =>
      intro d polls st h
      rw [ndDLoop] at h
      rw [if_neg (by simp)] at h
      rcases hrun : ndKRun sA sB (d + 1) st with ⟨st1, k?⟩
      rw [hrun] at h
      cases k? with
      | some k => exact NDOutcome.noConfusion (Option.some.inj h)
      | none => exact ih (d + 1) (polls + 1) st1 h

/-- C4: deadline behaviour of both LCS algorithms on non-empty inputs.
The DP polls once per cell; it bails out to the single full-range diff
with the flag set exactly when the deadline is enabled and one of its
polls reports expiry, and a deadline of 0 never sets the flag.  The
Myers loop polls once per d-iteration before sweeping; an expired first
poll yields the full-range diff with the flag set, any result with the
flag set is that single full-range diff, and a deadline of 0 never sets
the flag. -/
theorem C4_deadline (s1 s2 : ISeq) (timeoutMs : Int) (expired : Nat → Bool)
    (h1 : 0 < s1.length) (h2 : 0 < s2.length) :
    (0 < timeoutMs ∧ (List.range (s1.length * s2.length)).any expired = true →
      myersDpDiffAlgorithm s1 s2 timeoutMs expired =
        ⟨[⟨0, (s1.length : Int), 0, (s2.length : Int)⟩], true⟩) ∧
    (timeoutMs = 0 →
      (myersDpDiffAlgorithm s1 s2 timeoutMs expired).hitTimeout = false) ∧
    (0 < timeoutMs → expired 0 = true →
      myersNdDiffAlgorithm s1 s2 timeoutMs expired =
        some ⟨[⟨0, (s1.length : Int), 0, (s2.length : Int)⟩], true⟩) ∧
    (∀ r, myersNdDiffAlgorithm s1 s2 timeoutMs expired = some r →
      r.hitTimeout = true →
      r.diffs = [⟨0, (s1.length : Int), 0, (s2.length : Int)⟩]) ∧
    (timeoutMs = 0 → ∀ r, myersNdDiffAlgorithm s1 s2 timeoutMs expired = some r →
      r.hitTimeout = false) := by
  have hne : ¬(s1.length = 0 ∨ s2.length = 0) := by omega
  refine ⟨?_, ?_, ?_, ?_, ?_⟩
  · intro hb
    unfold myersDpDiffAlgorithm
    rw [if_neg hne, if_pos hb]
  · intro hz
    subst hz
    unfold myersDpDiffAlgorithm
    rw [if_neg hne, if_neg (by simp)]
  · intro ht hx
    unfold myersNdDiffAlgorithm
    rw [if_neg hne]
    dsimp only
    have hfuel : s1.length + s2.length + 2 = (s1.length + s2.length + 1) + 1 := rfl
    rw [hfuel, ndDLoop]
    rw [if_pos ⟨ht, hx⟩]
  · intro r hr hflag
    unfold myersNdDiffAlgorithm at hr
    rw [if_neg hne] at hr
    dsimp only at hr
    rcases hloop : ndDLoop s1 s2 timeoutMs expired (s1.length + s2.length + 2) 0 0
        ⟨upd (fun _ => 0) 0 (xAfterSnake s1 s2 (s1.length + 1) 0 0),
         upd (fun _ => []) 0
           (if xAfterSnake s1 s2 (s1.length + 1) 0 0 = 0 then []
            else [(0, 0, xAfterSnake s1 s2 (s1.length + 1) 0 0)])⟩ with
      _ | o
    · rw [hloop] at hr
      exact Option.noConfusion hr
    · rw [hloop] at hr
      cases o with
      | timedOut =>
          have := Option.some.inj hr
          rw [← this]
      | found st k =>
          have := Option.some.inj hr
          rw [← this] at hflag
          exact Bool.noConfusion hflag
  · intro hz r hr
    subst hz
    unfold myersNdDiffAlgorithm at hr
    by_cases hempty : s1.length = 0 ∨ s2.length = 0
    · omega
    · rw [if_neg hempty] at hr
      dsimp only at hr
      rcases hloop : ndDLoop s1 s2 0 expired (s1.length + s2.length + 2) 0 0
          ⟨upd (fun _ => 0) 0 (xAfterSnake s1 s2 (s1.length + 1) 0 0),
           upd (fun _ => []) 0
             (if xAfterSnake s1 s2 (s1.length + 1) 0 0 = 0 then []
              else [(0, 0, xAfterSnake s1 s2 (s1.length + 1) 0 0)])⟩ with
        _ | o
      · rw [hloop] at hr
        exact Option.noConfusion hr
      · rw [hloop] at hr
        cases o with
        | timedOut => exact absurd hloop (ndDLoop_zero_no_timeout s1 s2 expired _ _ _ _)
        | found st k =>
            have := Option.some.inj hr
            rw [← this]

/-- Witness for C4 on two singleton sequences with an immediately
expiring clock. -/
theorem C4_deadline_witness :
    ((0 : Int) < 5 ∧
        (List.range ((⟨1, fun _ => 0, fun _ _ => true, fun _ => 0⟩ : ISeq).length *
          (⟨1, fun _ => 1, fun _ _ => false, fun _ => 0⟩ : ISeq).length)).any
          (fun _ => true) = true →
      myersDpDiffAlgorithm ⟨1, fun _ => 0, fun _ _ => true, fun _ => 0⟩
          ⟨1, fun _ => 1, fun _ _ => false, fun _ => 0⟩ 5 (fun _ => true) =
        ⟨[⟨0, 1, 0, 1⟩], true⟩) ∧
    ((5 : Int) = 0 →
      (myersDpDiffAlgorithm ⟨1, fun _ => 0, fun _ _ => true, fun _ => 0⟩
          ⟨1, fun _ => 1, fun _ _ => false, fun _ => 0⟩ 5 (fun _ => true)).hitTimeout =
        false) ∧
    ((0 : Int) < 5 → (fun _ : Nat => true) 0 = true →
      myersNdDiffAlgorithm ⟨1, fun _ => 0, fun _ _ => true, fun _ => 0⟩
          ⟨1, fun _ => 1, fun _ _ => false, fun _ => 0⟩ 5 (fun _ => true) =
        some ⟨[⟨0, 1, 0, 1⟩], true⟩) ∧
    (∀ r, myersNdDiffAlgorithm ⟨1, fun _ => 0, fun _ _ => true, fun _ => 0⟩
          ⟨1, fun _ => 1, fun _ _ => false, fun _ => 0⟩ 5 (fun _ => true) = some r →
      r.hitTimeout = true → r.diffs = [⟨0, 1, 0, 1⟩]) ∧
    ((5 : Int) = 0 →
      ∀ r, myersNdDiffAlgorithm ⟨1, fun _ => 0, fun _ _ => true, fun _ => 0⟩
          ⟨1, fun _ => 1, fun _ _ => false, fun _ => 0⟩ 5 (fun _ => true) = some r →
        r.hitTimeout = false) :=
  C4_deadline ⟨1, fun _ => 0, fun _ _ => true, fun _ => 0⟩
    ⟨1, fun _ => 1, fun _ _ => false, fun _ => 0⟩ 5 (fun _ => true)
    (by decide) (by decide)

/-- C10: when at least one input sequence is empty, both LCS algorithms
return immediately — an empty diff list when both are empty, otherwise a
single full-range diff — and never set the timeout flag, for every
deadline and clock. -/
theorem C10_empty_inputs (s1 s2 : ISeq) (timeoutMs : Int) (expired : Nat → Bool)
    (h : s1.length = 0 ∨ s2.length = 0) :
    myersDpDiffAlgorithm s1 s2 timeoutMs expired =
      (if s1.length = 0 ∧ s2.length = 0 then ⟨[], false⟩
       else ⟨[⟨0, (s1.length : Int), 0, (s2.length : Int)⟩], false⟩) ∧
    myersNdDiffAlgorithm s1 s2 timeoutMs expired =
      some (if s1.length = 0 ∧ s2.length = 0 then ⟨[], false⟩
        else ⟨[⟨0, (s1.length : Int), 0, (s2.length : Int)⟩], false⟩) := by
  constructor
  · unfold myersDpDiffAlgorithm
    rw [if_pos h]
  · unfold myersNdDiffAlgorithm
    rw [if_pos h]

/-- Witness for C10: an empty sequence against a singleton. -/
theorem C10_empty_inputs_witness :
    myersDpDiffAlgorithm ⟨0, fun _ => 0, fun _ _ => false, fun _ => 0⟩
        ⟨1, fun _ => 7, fun _ _ => false, fun _ => 0⟩ 9 (fun _ => true) =
      (if (⟨0, fun _ => 0, fun _ _ => false, fun _ => 0⟩ : ISeq).length = 0 ∧
          (⟨1, fun _ => 7, fun _ _ => false, fun _ => 0⟩ : ISeq).length = 0 then
        ⟨[], false⟩
       else ⟨[⟨0, 0, 0, 1⟩], false⟩) ∧
    myersNdDiffAlgorithm ⟨0, fun _ => 0, fun _ _ => false, fun _ => 0⟩
        ⟨1, fun _ => 7, fun _ _ => false, fun _ => 0⟩ 9 (fun _ => true) =
      some (if (⟨0, fun _ => 0, fun _ _ => false, fun _ => 0⟩ : ISeq).length = 0 ∧
          (⟨1, fun _ => 7, fun _ _ => false, fun _ => 0⟩ : ISeq).length = 0 then
        ⟨[], false⟩
       else ⟨[⟨0, 0, 0, 1⟩], false⟩) :=
  C10_empty_inputs ⟨0, fun _ => 0, fun _ _ => false, fun _ => 0⟩
    ⟨1, fun _ => 7, fun _ _ => false, fun _ => 0⟩ 9 (fun _ => true) (by decide)

/-! ### The very-short-gap merging pass: iteration count -/

/-- Demo input for the sweep-count bound: twelve single-line diffs
followed by one three-line diff, every line being `"xx"`, so that each
sweep can absorb exactly one more small diff into the growing right
block. -/
def rvslDemoLines : List Str := List.replicate 27 [120, 120]

/-- The thirteen diffs of the demo input. -/
def rvslDemoDiffs : List SequenceDiff :=
  ((List.range 12).map fun i =>
    ⟨2 * (i : Int), 2 * (i : Int) + 1, 2 * (i : Int), 2 * (i : Int) + 1⟩) ++
    [⟨24, 27, 24, 27⟩]

/-- C6 (corrected bound): on a non-empty diff list the pass is the
sweep driver run with fuel 11 — the C's `do { .. } while (counter++ < 10
&& should_repeat)` performs the initial sweep plus at most 10 repeats —
each sweep joins the running diff with the next one exactly when the
unchanged seq1 gap holds at most 4 non-whitespace code points and one of
the two spans more than 5 total lines, and the iteration stops at the
first sweep that joined nothing. -/
theorem C6_gap_merge_pass (lines : List Str) (diffs : List SequenceDiff)
    (hne : diffs ≠ []) :
    removeVeryShortMatchingLinesBetweenDiffs lines diffs = rvslLoop lines 11 diffs ∧
    (∀ (last cur : SequenceDiff) (rest : List SequenceDiff) (rep : Bool),
      rvslSweepGo lines last (cur :: rest) rep =
        if gapNonWsCount lines last.seq1End cur.seq1Start ≤ 4 ∧
            (5 < (last.seq1End - last.seq1Start) + (last.seq2End - last.seq2Start) ∨
              5 < (cur.seq1End - cur.seq1Start) + (cur.seq2End - cur.seq2Start)) then
          rvslSweepGo lines ⟨last.seq1Start, cur.seq1End, last.seq2Start, cur.seq2End⟩
            rest true
        else
          (last :: (rvslSweepGo lines cur rest rep).1,
            (rvslSweepGo lines cur rest rep).2)) ∧
    (∀ (f : Nat) (ds : List SequenceDiff), (rvslSweep lines ds).2 = false →
      rvslLoop lines (f + 1) ds = (rvslSweep lines ds).1) := by
  refine ⟨?_, ?_, ?_⟩
  · unfold removeVeryShortMatchingLinesBetweenDiffs
    cases diffs with
    | nil => exact absurd rfl hne
    | cons a rest => rfl
  · intro last cur rest rep
    rw [rvslSweepGo]
  · intro f ds hstop
    rw [rvslLoop, hstop]
    simp

/-- Witness for C6 on a one-element diff list. -/
theorem C6_gap_merge_pass_witness :
    removeVeryShortMatchingLinesBetweenDiffs [] [⟨0, 1, 0, 1⟩] =
        rvslLoop [] 11 [⟨0, 1, 0, 1⟩] ∧
    (∀ (last cur : SequenceDiff) (rest : List SequenceDiff) (rep : Bool),
      rvslSweepGo [] last (cur :: rest) rep =
        if gapNonWsCount [] last.seq1End cur.seq1Start ≤ 4 ∧
            (5 < (last.seq1End - last.seq1Start) + (last.seq2End - last.seq2Start) ∨
              5 < (cur.seq1End - cur.seq1Start) + (cur.seq2End - cur.seq2Start)) then
          rvslSweepGo [] ⟨last.seq1Start, cur.seq1End, last.seq2Start, cur.seq2End⟩
            rest true
        else
          (last :: (rvslSweepGo [] cur rest rep).1,
            (rvslSweepGo [] cur rest rep).2)) ∧
    (∀ (f : Nat) (ds : List SequenceDiff), (rvslSweep [] ds).2 = false →
      rvslLoop [] (f + 1) ds = (rvslSweep [] ds).1) :=
  C6_gap_merge_pass [] [⟨0, 1, 0, 1⟩] (by simp)

/-- Counterexample to the claimed 10-iteration bound: on the demo input
the pass (11 sweeps) produces a different diff list than the 10-sweep
driver the claim describes, so 10 iterations do not cover the fixpoint
the code computes. -/
theorem C6_ten_sweeps_differ :
    removeVeryShortMatchingLinesBetweenDiffs rvslDemoLines rvslDemoDiffs ≠
      rvslLoop rvslDemoLines 10 rvslDemoDiffs := by decide

/-- C7: on a line slice beginning with U+00A0 (bytes 0xC2 0xA0) the
construction's trimming — C `isspace` over single bytes — removes
nothing and records trimmed_ws = 0, while the §4.2 Unicode whitespace
set classifies the leading code point U+00A0 as whitespace, so the
spec-mandated trim drops it. -/
theorem C7_nbsp_not_trimmed :
    charSeqLineTrim [194, 160, 97] false = ([194, 160, 97], 0) ∧
    utf8Iterate [194, 160, 97] = some (160, [97]) ∧
    isUnicodeWhitespace 160 = true ∧
    specDropLeadingWs 3 [194, 160, 97] = [97] := by
  refine ⟨?_, rfl, rfl, rfl⟩
  decide

/-- Modelled from the spec: the per-category boundary score table as the
claim words it. -/
def specCategoryScore : CharBoundaryCategory → Int
  | .wordLower => 0
  | .wordUpper => 0
  | .wordNumber => 0
  | .other => 2
  | .space => 3
  | .endCat => 10
  | .lineBreakCR => 10
  | .lineBreakLF => 10
  | .separator => 30

/-- Modelled from the spec: the boundary score as the claim words it —
0 between CR and LF, 150 after LF, otherwise the transition bonus (10,
plus 1 for lower→upper) plus both per-category scores. -/
def specBoundaryScore (p n : CharBoundaryCategory) : Int :=
  if p = .lineBreakCR ∧ n = .lineBreakLF then 0
  else if p = .lineBreakLF then 150
  else
    (if p ≠ n then
      (10 : Int) + (if p = .wordLower ∧ n = .wordUpper then 1 else 0)
    else 0) + specCategoryScore p + specCategoryScore n

/-- C9: at every position of every character sequence, the boundary
score computed by the code equals the score the claim describes for the
categories of the surrounding characters. -/
theorem C9_boundary_score (elements : List Nat) (pos : Int) :
    charSeqGetBoundaryScore elements pos =
      specBoundaryScore (getCharCategory (prevCharAt elements pos))
        (getCharCategory (nextCharAt elements pos)) := by
  have h : ∀ p n, charBoundaryScoreCats p n = specBoundaryScore p n := by
    intro p n
    cases p <;> cases n <;> rfl
  unfold charSeqGetBoundaryScore
  rw [h]

/-- C8 (corrected): allocation failure at the sites routed through the
mem_alloc / mem_realloc wrappers terminates the process with exit(1)
instead of surfacing a failure result to the caller. -/
theorem C8_alloc_failure_exits (size : Nat) (h : 0 < size) :
    mem_alloc size .failure = .exits 1 ∧ mem_realloc size .failure = .exits 1 := by
  constructor
  · show (if 0 < size then AllocBehaviour.exits 1 else .returns true) = _
    rw [if_pos h]
  · show (if 0 < size then AllocBehaviour.exits 1 else .returns true) = _
    rw [if_pos h]

/-- Witness for C8 at a one-byte allocation. -/
theorem C8_alloc_failure_exits_witness :
    mem_alloc 1 .failure = .exits 1 ∧ mem_realloc 1 .failure = .exits 1 :=
  C8_alloc_failure_exits 1 (by decide)

/-- Counterexample to the claimed unwind-and-return behaviour: a failed
one-byte mem_alloc does not return anything — null result included — to
its caller; the process exits. -/
theorem C8_no_failure_result :
    mem_alloc 1 .failure = .exits 1 ∧
    ∀ b : Bool, mem_alloc 1 .failure ≠ .returns b := by decide

/-! ### The word-extension criterion -/

theorem shouldExtendWord_iff (force : Bool) (eq wl : Int) :
    shouldExtendWord force eq wl = true ↔
      ((force = true ∧ eq < wl) ∨ ((eq : ℚ) < (wl : ℚ) * 2 / 3)) := by
  simp [shouldExtendWord, Bool.or_eq_true, Bool.and_eq_true, decide_eq_true_iff]

/-- C5: whenever scan_word scans a word (neither the rescan guard nor a
failed word lookup cuts it short), the joined word `r.1` with summed
equal length `r.2.1` is emitted as an additional diff exactly when
`(force && eq < word_len) || (eq < word_len * 2.0 / 3.0)` holds, the
division performed before comparing (modelled by the exact rational,
with which the f64 comparison agrees on these integer operands). -/
theorem C5_word_extension_criterion
    (find1 find2 : Int → Option (Int × Int)) (force : Bool)
    (allEqual : List SequenceDiff) (cur : SequenceDiff)
    (offset1 offset2 : Int) (st : ScanState)
    (hoff : ¬(offset1 < st.lastOffset1 ∨ offset2 < st.lastOffset2))
    (w1s w1e w2s w2e : Int)
    (h1 : find1 offset1 = some (w1s, w1e))
    (h2 : find2 offset2 = some (w2s, w2e))
    (r : SequenceDiff × Int × Nat)
    (hr : scanWordLoop find1 find2 allEqual (allEqual.length + 1) st.queuePos
        ⟨w1s, w1e, w2s, w2e⟩
        (max 0 (min w1e cur.seq1End - max w1s cur.seq1Start) +
          max 0 (min w2e cur.seq2End - max w2s cur.seq2Start)) = r) :
    ((scanWord find1 find2 force allEqual cur offset1 offset2 st).additional =
        st.additional ++ [r.1]) ↔
      ((force = true ∧
          r.2.1 < (r.1.seq1End - r.1.seq1Start) + (r.1.seq2End - r.1.seq2Start)) ∨
        ((r.2.1 : ℚ) <
          (((r.1.seq1End - r.1.seq1Start) + (r.1.seq2End - r.1.seq2Start) : Int) : ℚ)
            * 2 / 3)) := by
  unfold scanWord
  rw [if_neg hoff, h1, h2]
  dsimp only
  rw [hr]
  by_cases hc : shouldExtendWord force r.2.1
      ((r.1.seq1End - r.1.seq1Start) + (r.1.seq2End - r.1.seq2Start)) = true
  · rw [if_pos hc]
    exact iff_of_true rfl ((shouldExtendWord_iff _ _ _).mp hc)
  · rw [if_neg hc]
    refine iff_of_false ?_ ?_
    · intro h
      have := congrArg List.length h
      simp at this
    · intro h
      exact hc ((shouldExtendWord_iff _ _ _).mpr h)

/-- Witness for C5: a 2+2-unit word with 2 equal units is below the
two-thirds bound, so it is emitted. -/
theorem C5_word_extension_criterion_witness :
    (scanWord (fun _ => some (0, 2)) (fun _ => some (0, 2)) false []
        ⟨0, 1, 0, 1⟩ 0 0 ⟨0, 0, 0, []⟩).additional = [] ++ [⟨0, 2, 0, 2⟩] :=
  (C5_word_extension_criterion (fun _ => some (0, 2)) (fun _ => some (0, 2)) false []
      ⟨0, 1, 0, 1⟩ 0 0 ⟨0, 0, 0, []⟩ (by decide) 0 2 0 2 rfl rfl
      (⟨0, 2, 0, 2⟩, 2, 0) rfl).mpr
    (Or.inr (by norm_num))

end VDiff
